/-
Verification of the sigsim cryptographic laboratory: prime-field
arithmetic (pkg/field/field.go), short Weierstrass curve group law and
order computation (pkg/ec/curve.go, pkg/math/prime.go), and the ECDSA
layer (pkg/ecdsa).

The Go code works on int64 values and performs the modular reductions
with 64-bit machine arithmetic (math/bits.Add64 / Mul64 / Div64).  The
embedding models machine words as unbounded integers together with the
explicit `mod 2^64` conversions that the Go code performs, so that the
absence of overflow becomes a provable statement rather than an
assumption.  Go `while` loops are modelled as structurally recursive
functions with an explicit fuel argument; each use supplies fuel that is
proved (or, for concrete inputs, computed) to be sufficient, so the
embedded function agrees with the Go loop whenever the loop terminates.
-/
import Mathlib

set_option linter.unusedVariables false
set_option maxRecDepth 8000

/-! ## Machine integer helpers

`uint64 i` is the value of the Go conversion `uint64(i)` applied to an
int64 value `i`; `int64OfU64 n` is the Go conversion `int64(n)` applied
to a uint64 value `n` (two's complement). -/

def uint64 (i : Int) : Nat := (i % (2 ^ 64 : Int)).toNat

def int64OfU64 (n : Nat) : Int :=
  if n < 2 ^ 63 then (n : Int) else (n : Int) - 2 ^ 64

/-- Bit `b` of the two's-complement representation of the int64 value
`k`; this is the value of the Go test `k & (1 << b) != 0` for
`0 ≤ b < 64` (Go shifts wrap, so `1 << 63` is the sign bit). -/
def goBit (k : Int) (b : Nat) : Bool := (uint64 k).testBit b

namespace Finite

/-- Errors produced by the field layer (Go returns `error` values built
with `fmt.Errorf`; only their identity matters here). -/
inductive Err where
  | notInvertible
  | unsupportedField
  | notQuadraticResidue
  deriving DecidableEq, Repr

/-- `field.Finite.Element`. -/
def Element (p i : Int) : Bool :=
  if i < 0 then false else if i ≥ p then false else true

/-- The `for i < 0 { i += p }` loop of `field.Finite.Canonicalize`,
with fuel (the Go loop terminates for `p > 0`, and the fuel supplied by
`Canonicalize` is then sufficient). -/
def canonLoop : Nat → Int → Int → Int
  | 0, _, i => i
  | fuel + 1, p, i => if i < 0 then canonLoop fuel p (i + p) else i

/-- `field.Finite.Canonicalize`: `i %= p` (Go `%` truncates) when
`i ≥ p`, otherwise repeated addition of `p` while negative. -/
def Canonicalize (p i : Int) : Int :=
  if i ≥ p then i.tmod p else canonLoop (i.natAbs + 1) p i

/-- `field.Finite.Add`: normalize negative operands by a single
addition of `p`, then a 64-bit add with carry (`bits.Add64`) and a
128-by-64-bit remainder (`bits.Div64`).  `bits.Div64 hi lo y` computes
`(hi*2^64 + lo) % y`; with the theorems' operand ranges the carry is `0`
and the quotient fits, so Go's panic cases do not arise. -/
def Add (p i j : Int) : Int :=
  let i := if i < 0 then i + p else i
  let j := if j < 0 then j + p else j
  int64OfU64 ((uint64 i + uint64 j) % uint64 p)

/-- `field.Finite.Multiply`: normalize negative operands, then a full
64×64→128-bit product (`bits.Mul64`) reduced by `bits.Div64`. -/
def Multiply (p i j : Int) : Int :=
  let i := if i < 0 then i + p else i
  let j := if j < 0 then j + p else j
  int64OfU64 ((uint64 i * uint64 j) % uint64 p)

/-- The extended-Euclid loop of `field.Finite.Inverse`, on the state
`(t, newT, r, newR)`, with fuel; the quotient `r / newR` is Go's
truncating division.  Returns the final `(t, r)`. -/
def inverseLoop : Nat → Int → Int → Int → Int → Int × Int
  | 0, t, _, r, _ => (t, r)
  | fuel + 1, t, newT, r, newR =>
    if newR = 0 then (t, r)
    else
      inverseLoop fuel newT (t - r.tdiv newR * newT) newR (r - r.tdiv newR * newR)

/-- `field.Finite.Inverse`: extended Euclidean algorithm over int64.
`|newR|` strictly decreases at each iteration, so `p.natAbs + 2` fuel is
enough for every input on which the Go loop terminates. -/
def Inverse (p i : Int) : Except Err Int :=
  let res := inverseLoop (p.natAbs + i.natAbs + 2) 0 1 p (i.tmod p)
  if res.2 > 1 then .error .notInvertible else .ok (Canonicalize p res.1)

/-- The 64-iteration square-and-multiply loop of
`field.Finite.Exponentiate`; `b` is the Go loop index, `fuel` counts the
remaining iterations (`field.BitLength = 64`). -/
def expLoop (p j : Int) : Nat → Nat → Int → Int → Int
  | 0, _, r, _ => r
  | fuel + 1, b, r, i =>
    expLoop p j fuel (b + 1) (if goBit j b then Multiply p r i else r) (Multiply p i i)

/-- `field.Finite.Exponentiate`.  The Go function panics when `i ≥ p`
or `j ≥ p`; the theorems below only use it within that contract. -/
def Exponentiate (p i j : Int) : Int :=
  Canonicalize p (expLoop p j 64 0 1 i)

/-- `field.Finite.Sqrt`.  Go checks `i ≥ p` with a panic first (the
theorems below keep `i < p`), then `p % 4 == 3`, handles `0`, computes
`x = i^((p+1)/4)` and verifies `x² == i`. -/
def Sqrt (p i : Int) : Except Err Int :=
  let rem := p.tmod 4
  if rem ≠ 3 then .error .unsupportedField
  else if i = 0 then .ok 0
  else
    let e := (p + 1).tdiv 4
    let x := Exponentiate p i e
    let j := Multiply p x x
    if i = j then .ok (Canonicalize p x) else .error .notQuadraticResidue

end Finite

/-! ## Prime factorization (`pkg/math/prime.go`) -/

namespace smath

/-- The `for n % 2 == 0` loop of `math.PrimeFactors`, with fuel
(`n` at least halves at every step). -/
def pfTwoLoop : Nat → Int → List Int × Int
  | 0, n => ([], n)
  | fuel + 1, n =>
    if n.tmod 2 = 0 then
      let res := pfTwoLoop fuel (n.tdiv 2)
      (2 :: res.1, res.2)
    else ([], n)

/-- The odd trial-division loop of `math.PrimeFactors` (`for i := 3;
i*i <= n; i += 2` with the inner `for n % i == 0` flattened into the
same recursion), with fuel. -/
def pfOddLoop : Nat → Int → Int → List Int × Int
  | 0, _, n => ([], n)
  | fuel + 1, i, n =>
    if i * i ≤ n then
      if n.tmod i = 0 then
        let res := pfOddLoop fuel i (n.tdiv i)
        (i :: res.1, res.2)
      else pfOddLoop fuel (i + 2) n
    else ([], n)

/-- `math.PrimeFactors`: trial division by 2, then odd integers up to
`√n`; a residual `> 2` is prime and appended. -/
def PrimeFactors (n : Int) : List Int :=
  let two := pfTwoLoop (n.natAbs + 1) n
  let odd := pfOddLoop (2 * n.natAbs + 4) 3 two.2
  let pfs := two.1 ++ odd.1
  if odd.2 > 2 then pfs ++ [odd.2] else pfs

end smath

/-! ## Elliptic curve layer (`pkg/ec/curve.go`) -/

namespace ec

/-- `ec.Point`: a point on a curve; `Inf` marks the identity element. -/
structure Point where
  X : Int
  Y : Int
  Inf : Bool
  deriving DecidableEq, Repr

/-- `ec.Point.Equal`: compares `X`, then `Y`, then the `Inf` flags. -/
def Point.Equal (p cmp : Point) : Bool :=
  if p.X ≠ cmp.X then false
  else if p.Y ≠ cmp.Y then false
  else p.Inf == cmp.Inf

/-- `ec.Curve`: a short Weierstrass curve `Y² = X³ + AX + B` over the
finite field of order `F`, with generator `G` of declared order `N` and
bit size `BS`. -/
structure Curve where
  F : Int
  A : Int
  B : Int
  G : Point
  N : Int
  BS : Int
  deriving DecidableEq, Repr

/-- `ec.Curve.Discriminant`: `4a³ + 27b²`, computed with `big.Int`
(unbounded precision, no reduction modulo `F`). -/
def Curve.Discriminant (c : Curve) : Int :=
  4 * c.A ^ 3 + 27 * c.B ^ 2

/-- Errors of `ec.NewCurve`. -/
inductive CurveErr where
  | invalidA
  | invalidB
  | singular
  deriving DecidableEq, Repr

/-- The descending bit scan of `ec.NewCurve` (`for i := 63; i > 0; i--`,
`bs = i + 1` at the first set bit of `p`; Go's `1 << 63` wraps to the
sign bit, which `goBit` reproduces).  The argument is the loop index. -/
def bitSizeLoop (p : Int) : Nat → Nat
  | 0 => 0
  | i + 1 => if goBit p (i + 1) then (i + 1) + 1 else bitSizeLoop p i

/-- `ec.NewCurve`: validates that `a`, `b` are field elements, computes
the bit size of `p`, and rejects a zero discriminant (`big.Int.BitLen()
== 0` iff the unbounded integer is zero). -/
def NewCurve (f a b : Int) : Except CurveErr Curve :=
  if ¬ Finite.Element f a then .error .invalidA
  else if ¬ Finite.Element f b then .error .invalidB
  else
    let bs : Int := bitSizeLoop f 63
    let c : Curve := { F := f, A := a, B := b, G := ⟨0, 0, false⟩, N := 0, BS := bs }
    if c.Discriminant = 0 then .error .singular else .ok c

/-- `ec.Curve.Add`: the chord-and-tangent group law.  A non-invertible
slope denominator yields the identity point (`Point{Inf: true}`, whose
coordinates are zero). -/
def Curve.Add (c : Curve) (p q : Point) : Point :=
  if p.Inf then q
  else if q.Inf then p
  else
    let slopeRes : Except Finite.Err Int :=
      if p.Equal q then
        match Finite.Inverse c.F (Finite.Multiply c.F 2 p.Y) with
        | .error e => .error e
        | .ok inv =>
          .ok (Finite.Multiply c.F
            (Finite.Add c.F (Finite.Multiply c.F 3 (Finite.Multiply c.F p.X p.X)) c.A) inv)
      else
        match Finite.Inverse c.F (Finite.Add c.F q.X (-p.X)) with
        | .error e => .error e
        | .ok inv => .ok (Finite.Multiply c.F (Finite.Add c.F q.Y (-p.Y)) inv)
    match slopeRes with
    | .error _ => { X := 0, Y := 0, Inf := true }
    | .ok m =>
      let rX := Finite.Add c.F (Finite.Add c.F (Finite.Multiply c.F m m) (-p.X)) (-q.X)
      let rY := Finite.Add c.F (Finite.Multiply c.F (Finite.Add c.F p.X (-rX)) m) (-p.Y)
      { X := rX, Y := rY, Inf := false }

/-- The 64-iteration double-and-add loop of `ec.Curve.ScalarM`; `b` is
the Go loop index, `fuel` the remaining iterations. -/
def Curve.scalarLoop (c : Curve) (k : Int) : Nat → Nat → Point → Point → Point
  | 0, _, r, _ => r
  | fuel + 1, b, r, p =>
    c.scalarLoop k fuel (b + 1) (if goBit k b then c.Add r p else r) (c.Add p p)

/-- `ec.Curve.ScalarM`: scalar multiplication by double-and-add over
the fixed word width (`field.BitLength = 64`), starting from the
identity point. -/
def Curve.ScalarM (c : Curve) (k : Int) (p : Point) : Point :=
  c.scalarLoop k 64 0 { X := 0, Y := 0, Inf := true } p

/-- `ec.Curve.Valid`: infinity is valid; a finite point is valid iff
`y² ≡ x³ + ax + b (mod F)` (computed with `Exponentiate`, which in Go
panics when a coordinate is `≥ F`; the theorems below keep coordinates
canonical). -/
def Curve.Valid (c : Curve) (p : Point) : Bool :=
  if p.Inf then true
  else
    let lhs := Finite.Exponentiate c.F p.Y 2
    let rhs := Finite.Add c.F
      (Finite.Add c.F (Finite.Exponentiate c.F p.X 3) (Finite.Multiply c.F c.A p.X)) c.B
    lhs == rhs

/-- The prime-factor reduction loop at the end of `ec.Curve.OrderBG`
(`for i := 0; i < len(pfs);` with `s = mp / pfs[i]`, break on `s == 0`,
`mp = s` and retest on identity, else `i++`), with fuel (each iteration
divides `mp` by a factor `≥ 2` or advances `i`). -/
def Curve.orderReduceLoop (c : Curve) (p : Point) (pfs : List Int) :
    Nat → Nat → Int → Int
  | 0, _, mp => mp
  | fuel + 1, i, mp =>
    if h : i < pfs.length then
      let s := mp.tdiv (pfs.get ⟨i, h⟩)
      if s = 0 then mp
      else if (c.ScalarM s p).Inf then c.orderReduceLoop p pfs fuel i s
      else c.orderReduceLoop p pfs fuel (i + 1) mp
    else mp

/-- The multiplicity-reduction phase of `ec.Curve.OrderBG`: starting
from `mp`, a multiple of the order of `p`, factor `mp` with
`math.PrimeFactors` and reduce it along the factor list.  The Go code
returns the final `mp` as the order of the point. -/
def Curve.orderReduce (c : Curve) (p : Point) (mp : Int) : Int :=
  let pfs := smath.PrimeFactors mp
  c.orderReduceLoop p pfs (mp.natAbs + pfs.length + 1) 0 mp

end ec

/-! ## ECDSA layer (`pkg/ecdsa/sign.go`) -/

namespace ecdsa

/-- `ecdsa.PublicKey`. -/
structure PublicKey where
  C : ec.Curve
  P : ec.Point
  deriving Repr

/-- `ecdsa.PrivateKey`. -/
structure PrivateKey where
  Pub : PublicKey
  D : Int
  deriving Repr

/-- Errors of the ECDSA layer (`errInvK` from `rawSign`; `solve`
returns distinct `fmt.Errorf` values for its three failure cases). -/
inductive SigErr where
  | errInvK
  | noInverse
  | dMismatch
  deriving DecidableEq, Repr

/-- `ecdsa.generateKey`: the public point is `d·G`. -/
def generateKey (c : ec.Curve) (d : Int) : PrivateKey :=
  { Pub := { C := c, P := c.ScalarM d c.G }, D := d }

/-- `ecdsa.truncate`: interpret the first `⌈bs/8⌉` bytes of `b` as a
big-endian integer and shift right to keep the top `bs` bits.  Go
panics when `bs > 31`; the theorems below keep `bs ≤ 31`. -/
def truncate (b : List Nat) (bs : Int) : Int :=
  let nb := (bs + 7).tdiv 8
  let rem := ((8 - bs.tmod 8).tmod 8).toNat
  let z := (b.take nb.toNat).foldl (fun (acc : Int) (v : Nat) => acc * 256 + (v : Int)) 0
  if rem > 0 then z / 2 ^ rem else z

/-- `ecdsa.rawSign`: `z` is the truncated digest, `P = k·G`,
`r = P.X mod N`, `s = k⁻¹(z + r·d) mod N`; fails with `errInvK` when
`r = 0`, `k` is not invertible mod `N`, or `s = 0`. -/
def rawSign (pk : PrivateKey) (k : Int) (h : List Nat) : Except SigErr (Int × Int) :=
  let sf := pk.Pub.C.N
  let z := truncate h pk.Pub.C.BS
  let p := pk.Pub.C.ScalarM k pk.Pub.C.G
  let r := Finite.Canonicalize sf p.X
  if r = 0 then .error .errInvK
  else
    match Finite.Inverse sf k with
    | .error _ => .error .errInvK
    | .ok inv =>
      let s := Finite.Multiply sf inv (Finite.Add sf z (Finite.Multiply sf r pk.D))
      if s = 0 then .error .errInvK else .ok (r, s)

/-- `ecdsa.Verify`: rejects an infinite, off-curve or wrong-subgroup
public point and out-of-range `r`, `s`; accepts iff
`(u1·G + u2·P).X ≡ r (mod N)` where `u1 = z·s⁻¹`, `u2 = r·s⁻¹`. -/
def Verify (pub : PublicKey) (r s : Int) (h : List Nat) : Bool :=
  if pub.P.Inf then false
  else if ¬ pub.C.Valid pub.P then false
  else if ¬ (pub.C.ScalarM pub.C.N pub.P).Inf then false
  else if r < 1 ∨ r ≥ pub.C.N then false
  else if s < 1 ∨ s ≥ pub.C.N then false
  else
    let z := truncate h pub.C.BS
    match Finite.Inverse pub.C.N s with
    | .error _ => false
    | .ok inv =>
      let u1 := Finite.Multiply pub.C.N z inv
      let u2 := Finite.Multiply pub.C.N r inv
      let cp := pub.C.Add (pub.C.ScalarM u1 pub.C.G) (pub.C.ScalarM u2 pub.P)
      if cp.Inf then false
      else Finite.Canonicalize pub.C.N cp.X == r

/-- `ecdsa.solve`: nonce-reuse private-key recovery;
`k = (z2−z1)/(s2−s1)`, `d = (s·k − z)/r` from each signature, failing
when an inverse does not exist or the two derived values disagree. -/
def solve (c : ec.Curve) (r s1 s2 : Int) (h1 h2 : List Nat) : Except SigErr Int :=
  let z1 := truncate h1 c.BS
  let z2 := truncate h2 c.BS
  let sf := c.N
  match Finite.Inverse sf (Finite.Add sf s2 (-s1)) with
  | .error _ => .error .noInverse
  | .ok inv =>
    let k := Finite.Multiply sf (Finite.Add sf z2 (-z1)) inv
    match Finite.Inverse sf r with
    | .error _ => .error .noInverse
    | .ok inv2 =>
      let d1 := Finite.Multiply sf (Finite.Add sf (Finite.Multiply sf s1 k) (-z1)) inv2
      let d2 := Finite.Multiply sf (Finite.Add sf (Finite.Multiply sf s2 k) (-z2)) inv2
      if d1 ≠ d2 then .error .dMismatch else .ok d1

end ecdsa


/-- The demonstration curve `p = 5`, `a = 2`, `b = 3` used by the
repository's own tests (`TestCurveAdd`, `TestPointsOnCurve`). -/
def curve523 : ec.Curve :=
  { F := 5, A := 2, B := 3, G := ⟨0, 0, false⟩, N := 0, BS := 0 }

/-- The claim's notion of a quadratic residue modulo `p` (`0` counts:
it is its own square root). -/
def IsQR (p i : Int) : Prop := ∃ w : Int, w * w ≡ i [ZMOD p]

/-- The test curve of the repository's `TestSignRaw`/`TestSolve`:
`p = 479`, `a = -3`, `b = 307`, generator `(403, 280)` of prime order
`233`, bit size `8`. -/
def curve479 : ec.Curve :=
  { F := 479, A := -3, B := 307, G := ⟨403, 280, false⟩, N := 233, BS := 8 }

/-! ## Bridge from the curve model to Mathlib Weierstrass curves

The code's group law is compared against Mathlib's nonsingular-point
group on the short Weierstrass curve `y² = x³ + Ax + B` over `ZMod P`.
A code point *models* a Mathlib point when it is the literal identity
record `⟨0, 0, true⟩` (the only identity the code ever constructs) or a
finite point with canonical coordinates casting to a nonsingular affine
point. -/

open WeierstrassCurve in
/-- The Mathlib short Weierstrass curve with the code's coefficients. -/
def Wcurve (P : ℕ) (A B : ℤ) : WeierstrassCurve.Affine (ZMod P) :=
  { a₁ := 0, a₂ := 0, a₃ := 0, a₄ := (A : ZMod P), a₆ := (B : ZMod P) }

/-- The modelling relation between code points and Mathlib points. -/
def Models (P : ℕ) (A B : ℤ) (pt : ec.Point) (Q : (Wcurve P A B).Point) : Prop :=
  (pt = ⟨0, 0, true⟩ ∧ Q = 0) ∨
  (pt.Inf = false ∧ 0 ≤ pt.X ∧ pt.X < (P : ℤ) ∧ 0 ≤ pt.Y ∧ pt.Y < (P : ℤ) ∧
    ∃ h : (Wcurve P A B).Nonsingular ((pt.X : ZMod P)) ((pt.Y : ZMod P)),
      Q = WeierstrassCurve.Affine.Point.some h)

/-- Reference definition for claim C6's "adding `P` to the identity
point `k` times via `Curve.Add`" (spec side). -/
def iterAdd (c : ec.Curve) (p : ec.Point) : Nat → ec.Point
  | 0 => ⟨0, 0, true⟩
  | n + 1 => c.Add (iterAdd c p n) p

/-- A curve over the composite modulus `9` used as counterexample for
C1 and C6: the point `(1, 1)` lies on `y² = x³` mod 9 and generates a
subgroup of order `3`. -/
def curveNine : ec.Curve :=
  { F := 9, A := 0, B := 0, G := ⟨1, 1, false⟩, N := 3, BS := 2 }

/-! ## Basic facts about the machine-arithmetic model -/

lemma uint64_of_range {i : Int} (h0 : 0 ≤ i) (h1 : i < 2 ^ 64) :
    (uint64 i : Int) = i := by
  unfold uint64
  rw [Int.emod_eq_of_lt h0 h1]
  exact Int.toNat_of_nonneg h0

lemma int64OfU64_of_lt {n : Nat} (h : n < 2 ^ 63) : int64OfU64 n = (n : Int) := by
  unfold int64OfU64
  rw [if_pos h]

lemma emod_add_self_right (i p : Int) : (i + p) % p = i % p := by
  have h := Int.add_mul_emod_self_left (a := i) (b := p) (c := 1)
  rw [mul_one] at h
  exact h

namespace Finite

lemma canonLoop_eq {p : Int} (hp : 0 < p) :
    ∀ (fuel : Nat) (i : Int), i < p → 0 ≤ i + fuel * p →
      canonLoop fuel p i = i % p := by
  intro fuel
  induction fuel with
  | zero =>
    intro i hlt hge
    simp only [Nat.cast_zero, zero_mul, add_zero] at hge
    simp [canonLoop, Int.emod_eq_of_lt hge hlt]
  | succ n ih =>
    intro i hlt hge
    simp only [canonLoop]
    by_cases hneg : i < 0
    · rw [if_pos hneg, ih (i + p) (by omega) (by push_cast at hge ⊢; linarith)]
      exact emod_add_self_right i p
    · rw [if_neg hneg, Int.emod_eq_of_lt (by omega) hlt]

lemma Canonicalize_eq {p : Int} (hp : 0 < p) (i : Int) :
    Canonicalize p i = i % p := by
  unfold Canonicalize
  by_cases hge : i ≥ p
  · rw [if_pos hge]
    exact Int.tmod_eq_emod (by omega) (by omega)
  · rw [if_neg hge]
    refine canonLoop_eq hp _ i (by omega) ?_
    rcases le_or_lt 0 i with h0 | h0
    · have h1 : 0 ≤ ((i.natAbs + 1 : Nat) : ℤ) * p := by positivity
      omega
    · have h1 : ((i.natAbs : ℤ) + 1) * 1 ≤ ((i.natAbs : ℤ) + 1) * p := by
        apply mul_le_mul_of_nonneg_left (by omega) (by positivity)
      have h2 : ((i.natAbs + 1 : Nat) : ℤ) * p = ((i.natAbs : ℤ) + 1) * p := by push_cast; ring
      omega

lemma Canonicalize_nonneg {p : Int} (hp : 0 < p) (i : Int) :
    0 ≤ Canonicalize p i := by
  rw [Canonicalize_eq hp]
  exact Int.emod_nonneg i (by omega)

lemma Canonicalize_lt {p : Int} (hp : 0 < p) (i : Int) :
    Canonicalize p i < p := by
  rw [Canonicalize_eq hp]
  exact Int.emod_lt_of_pos i hp

lemma Add_eq {p i j : Int} (hp : 0 < p) (hp63 : p < 2 ^ 63)
    (hi : -p ≤ i) (hi63 : i < 2 ^ 63) (hj : -p ≤ j) (hj63 : j < 2 ^ 63) :
    Add p i j = (i + j) % p := by
  unfold Add
  have hi0 : 0 ≤ (if i < 0 then i + p else i) := by split <;> omega
  have hi1 : (if i < 0 then i + p else i) < 2 ^ 64 := by split <;> omega
  have hj0 : 0 ≤ (if j < 0 then j + p else j) := by split <;> omega
  have hj1 : (if j < 0 then j + p else j) < 2 ^ 64 := by split <;> omega
  set i' := if i < 0 then i + p else i with hi'eq
  set j' := if j < 0 then j + p else j with hj'eq
  have hup : (uint64 p : Int) = p := uint64_of_range (by omega) (by omega)
  have hui : (uint64 i' : Int) = i' := uint64_of_range hi0 hi1
  have huj : (uint64 j' : Int) = j' := uint64_of_range hj0 hj1
  have hppos : 0 < uint64 p := by omega
  have hmod : (uint64 i' + uint64 j') % uint64 p < 2 ^ 63 := by
    have h1 := Nat.mod_lt (uint64 i' + uint64 j') hppos
    omega
  rw [int64OfU64_of_lt hmod]
  have hcast : (((uint64 i' + uint64 j') % uint64 p : ℕ) : ℤ) =
      ((uint64 i' : ℤ) + (uint64 j' : ℤ)) % (uint64 p : ℤ) := by
    push_cast
    ring_nf
  rw [hcast, hui, huj, hup]
  rw [hi'eq, hj'eq]
  split <;> split
  · have h : i + p + (j + p) = i + j + p + p := by ring
    rw [h, emod_add_self_right, emod_add_self_right]
  · have h : i + p + j = i + j + p := by ring
    rw [h, emod_add_self_right]
  · have h : i + (j + p) = i + j + p := by ring
    rw [h, emod_add_self_right]
  · rfl

lemma Multiply_eq {p i j : Int} (hp : 0 < p) (hp63 : p < 2 ^ 63)
    (hi : -p ≤ i) (hi63 : i < 2 ^ 63) (hj : -p ≤ j) (hj63 : j < 2 ^ 63) :
    Multiply p i j = (i * j) % p := by
  unfold Multiply
  have hi0 : 0 ≤ (if i < 0 then i + p else i) := by split <;> omega
  have hi1 : (if i < 0 then i + p else i) < 2 ^ 64 := by split <;> omega
  have hj0 : 0 ≤ (if j < 0 then j + p else j) := by split <;> omega
  have hj1 : (if j < 0 then j + p else j) < 2 ^ 64 := by split <;> omega
  set i' := if i < 0 then i + p else i with hi'eq
  set j' := if j < 0 then j + p else j with hj'eq
  have hup : (uint64 p : Int) = p := uint64_of_range (by omega) (by omega)
  have hui : (uint64 i' : Int) = i' := uint64_of_range hi0 hi1
  have huj : (uint64 j' : Int) = j' := uint64_of_range hj0 hj1
  have hppos : 0 < uint64 p := by omega
  have hmod : (uint64 i' * uint64 j') % uint64 p < 2 ^ 63 := by
    have h1 := Nat.mod_lt (uint64 i' * uint64 j') hppos
    omega
  rw [int64OfU64_of_lt hmod]
  have hcast : (((uint64 i' * uint64 j') % uint64 p : ℕ) : ℤ) =
      ((uint64 i' : ℤ) * (uint64 j' : ℤ)) % (uint64 p : ℤ) := by
    push_cast
    ring_nf
  rw [hcast, hui, huj, hup]
  have h1 : i' % p = i % p := by
    rw [hi'eq]
    split
    · exact emod_add_self_right i p
    · rfl
  have h2 : j' % p = j % p := by
    rw [hj'eq]
    split
    · exact emod_add_self_right j p
    · rfl
  calc (i' * j') % p = (i' % p) * (j' % p) % p := by rw [Int.mul_emod]
  _ = (i % p) * (j % p) % p := by rw [h1, h2]
  _ = (i * j) % p := by rw [← Int.mul_emod]

lemma Add_range {p i j : Int} (hp : 0 < p) (hp63 : p < 2 ^ 63)
    (hi : -p ≤ i) (hi63 : i < 2 ^ 63) (hj : -p ≤ j) (hj63 : j < 2 ^ 63) :
    0 ≤ Add p i j ∧ Add p i j < p := by
  rw [Add_eq hp hp63 hi hi63 hj hj63]
  exact ⟨Int.emod_nonneg _ (by omega), Int.emod_lt_of_pos _ hp⟩

lemma Multiply_range {p i j : Int} (hp : 0 < p) (hp63 : p < 2 ^ 63)
    (hi : -p ≤ i) (hi63 : i < 2 ^ 63) (hj : -p ≤ j) (hj63 : j < 2 ^ 63) :
    0 ≤ Multiply p i j ∧ Multiply p i j < p := by
  rw [Multiply_eq hp hp63 hi hi63 hj hj63]
  exact ⟨Int.emod_nonneg _ (by omega), Int.emod_lt_of_pos _ hp⟩

end Finite

/-! ## Further field-layer lemmas -/

namespace Finite

/-- `Inverse p 0` fails: the Euclid loop exits immediately with
remainder `p > 1`. -/
lemma Inverse_zero {p : Int} (hp : 2 ≤ p) : Inverse p 0 = .error .notInvertible := by
  have hloop : inverseLoop (p.natAbs + (0 : ℤ).natAbs + 2) 0 1 p ((0 : ℤ).tmod p) = (0, p) := by
    rw [Int.zero_tmod, show p.natAbs + (0 : ℤ).natAbs + 2 = (p.natAbs + 1) + 1 from rfl]
    simp [inverseLoop]
  simp only [Inverse, hloop]
  rw [if_pos (show ((0 : ℤ), p).2 > 1 by simp only []; omega)]

end Finite

/-! ## C3: field addition and multiplication -/

/-- **C3.**  For every prime `p` with `2 ≤ p < 2^63` and all int64
inputs `i`, `j` with `|i| < p` and `|j| < p`, `Finite.Add` returns
`(i + j) mod p` and `Finite.Multiply` returns `(i * j) mod p`, both
canonical representatives in `[0, p)`.  The definitions of `Add` and
`Multiply` perform the Go code's 64-bit conversions explicitly, so the
equalities with the untruncated `(i + j) % p` and `(i * j) % p` state
that no machine-word overflow occurs in any intermediate computation
(the carry into `bits.Div64` stays below the modulus, and the final
`int64` conversion is lossless). -/
theorem C3_add_multiply_mod (p i j : Int) (hp : Prime p) (h2 : 2 ≤ p)
    (hp63 : p < 2 ^ 63) (hi : |i| < p) (hj : |j| < p) :
    Finite.Add p i j = (i + j) % p ∧
    0 ≤ Finite.Add p i j ∧ Finite.Add p i j < p ∧
    Finite.Multiply p i j = (i * j) % p ∧
    0 ≤ Finite.Multiply p i j ∧ Finite.Multiply p i j < p := by
  have hi1 : -p ≤ i := by rw [abs_lt] at hi; omega
  have hi2 : i < 2 ^ 63 := by rw [abs_lt] at hi; omega
  have hj1 : -p ≤ j := by rw [abs_lt] at hj; omega
  have hj2 : j < 2 ^ 63 := by rw [abs_lt] at hj; omega
  have hp0 : 0 < p := by omega
  obtain ⟨ha1, ha2⟩ := Finite.Add_range hp0 hp63 hi1 hi2 hj1 hj2
  obtain ⟨hm1, hm2⟩ := Finite.Multiply_range hp0 hp63 hi1 hi2 hj1 hj2
  exact ⟨Finite.Add_eq hp0 hp63 hi1 hi2 hj1 hj2, ha1, ha2,
    Finite.Multiply_eq hp0 hp63 hi1 hi2 hj1 hj2, hm1, hm2⟩

/-- Witness for C3 at `p = 7`, `i = -3`, `j = 5`. -/
theorem C3_add_multiply_mod_witness :
    Finite.Add 7 (-3) 5 = 2 ∧ Finite.Multiply 7 (-3) 5 = 6 := by
  have h := C3_add_multiply_mod 7 (-3) 5 (by norm_num) (by norm_num) (by norm_num)
    (by norm_num) (by norm_num)
  refine ⟨h.1.trans (by decide), h.2.2.2.1.trans (by decide)⟩

/-! ## C9: point equality -/

/-- **C9 (counterexample).**  The claim says two points that both have
the infinity flag set are equal regardless of their stored coordinates;
`ec.Point.Equal` compares the coordinates first, so two infinity points
with different stored coordinates are not equal. -/
theorem C9_counterexample :
    (ec.Point.mk 1 2 true).Inf = true ∧ (ec.Point.mk 3 4 true).Inf = true ∧
    ec.Point.Equal (ec.Point.mk 1 2 true) (ec.Point.mk 3 4 true) = false := by
  decide

/-- **C9 (amended).**  `ec.Point.Equal` returns true iff the `X`
coordinates, the `Y` coordinates and the infinity flags all match; the
stored coordinates are compared even when both infinity flags are set. -/
theorem C9_equal_iff (p q : ec.Point) :
    ec.Point.Equal p q = true ↔ p.X = q.X ∧ p.Y = q.Y ∧ p.Inf = q.Inf := by
  unfold ec.Point.Equal
  by_cases hx : p.X = q.X
  · by_cases hy : p.Y = q.Y
    · simp [hx, hy]
    · simp [hx, hy]
  · simp [hx]

/-! ## C10: the singularity check uses the integer discriminant -/

/-- **C10.**  `ec.NewCurve` succeeds on `p = 5`, `a = 2`, `b = 3`: the
discriminant `4·2³ + 27·3² = 275` is nonzero as an unbounded integer,
so the singularity check passes, although `275 ≡ 0 (mod 5)` — the curve
is singular over the field. -/
theorem C10_singular_curve_accepted :
    ec.NewCurve 5 2 3 =
      .ok { F := 5, A := 2, B := 3, G := ⟨0, 0, false⟩, N := 0, BS := 3 } ∧
    ec.Curve.Discriminant { F := 5, A := 2, B := 3, G := ⟨0, 0, false⟩, N := 0, BS := 3 } = 275 ∧
    (275 : Int) % 5 = 0 ∧ (275 : Int) ≠ 0 := by
  refine ⟨by rfl, by decide, by decide, by decide⟩

/-! ## C7: the order-reduction loop of OrderBG -/

/-- **C7 (failing input).**  The point `(2,0)` on the curve `p = 5`,
`a = 2`, `b = 3` has order 2 (`1·P` is finite, `2·P` is the identity),
and `42` is a positive multiple of that order; yet the prime-factor
reduction loop of `OrderBG` started at `42` returns `4`, not `2`: with
the factor list `[2, 3, 7]` of `42` it reduces `42 → 14` (exact), then
`14 → 14/3 = 4` (inexact truncating division which the loop never
guards against), and no remaining step reduces `4`.  The code's own
comment asserts the returned value is the order of the point. -/
theorem C7_orderReduce_not_order :
    ec.Curve.orderReduce curve523 ⟨2, 0, false⟩ 42 = 4 ∧
    smath.PrimeFactors 42 = [2, 3, 7] ∧
    (curve523.ScalarM 1 ⟨2, 0, false⟩).Inf = false ∧
    curve523.ScalarM 2 ⟨2, 0, false⟩ = ⟨0, 0, true⟩ ∧
    (2 : Int) ∣ 42 := by
  refine ⟨by decide, by decide, by decide, by decide, by decide⟩

/-! ## C8: non-invertible slope denominators yield the identity -/

/-- **C8 (counterexample).**  The claim quantifies over every pair of
finite points.  For a point whose `Y` coordinate is below `-p`, the
single `+= p` normalization in `Multiply` does not make the operand
nonnegative, the `uint64` conversion wraps, and the computed slope
denominator is not `0` even though `2·P.y ≡ 0 (mod p)`: on the curve
with `p = 3` and the point `P = Q = (0, -6)` (so `2·(-6) ≡ 0 (mod 3)`),
`Add` returns the finite point `(0, 0)`, not the identity. -/
theorem C8_counterexample :
    (2 * (-6 : Int)) % 3 = 0 ∧
    ec.Point.Equal ⟨0, -6, false⟩ ⟨0, -6, false⟩ = true ∧
    ec.Curve.Add { F := 3, A := 0, B := 0, G := ⟨0, 0, false⟩, N := 0, BS := 0 }
      ⟨0, -6, false⟩ ⟨0, -6, false⟩ = ⟨0, 0, false⟩ := by
  refine ⟨by decide, by decide, by decide⟩

/-- **C8 (amended).**  For every curve whose field order satisfies
`2 ≤ p < 2^63` and every pair of finite points with coordinates of
magnitude at most `p`, if the slope denominator is zero modulo `p`
(`P = Q` per `Point.Equal` with `2·P.y ≡ 0 (mod p)`, or `P ≠ Q` with
`Q.x − P.x ≡ 0 (mod p)` — for a prime field exactly the non-invertible
denominators), then `Curve.Add` returns the identity point; `Add` is a
total function, so no error is possible. -/
theorem C8_zero_denominator_identity (c : ec.Curve) (P Q : ec.Point)
    (hp : 2 ≤ c.F) (hp63 : c.F < 2 ^ 63)
    (hPInf : P.Inf = false) (hQInf : Q.Inf = false)
    (hPX : |P.X| ≤ c.F) (hPY : |P.Y| ≤ c.F) (hQX : |Q.X| ≤ c.F)
    (hcase : (ec.Point.Equal P Q = true ∧ (2 * P.Y) % c.F = 0) ∨
             (ec.Point.Equal P Q = false ∧ (Q.X - P.X) % c.F = 0)) :
    c.Add P Q = ⟨0, 0, true⟩ := by
  rw [abs_le] at hPX hPY hQX
  rcases hcase with ⟨heq, hden⟩ | ⟨heq, hden⟩
  · have hm : Finite.Multiply c.F 2 P.Y = 0 := by
      rw [Finite.Multiply_eq (by omega) hp63 (by omega) (by omega) (by omega) (by omega)]
      exact hden
    simp only [ec.Curve.Add, hPInf, hQInf, heq, hm, Finite.Inverse_zero hp]
    simp
  · have hm : Finite.Add c.F Q.X (-P.X) = 0 := by
      rw [Finite.Add_eq (by omega) hp63 (by omega) (by omega) (by omega) (by omega)]
      rw [show Q.X + -P.X = Q.X - P.X by ring]
      exact hden
    simp only [ec.Curve.Add, hPInf, hQInf, heq, hm, Finite.Inverse_zero hp]
    simp

/-- Witness for C8 at `p = 5`, `P = Q = (2, 0)` (a point with `y = 0`,
so the tangent denominator is `0`). -/
theorem C8_zero_denominator_identity_witness :
    ec.Curve.Add curve523 ⟨2, 0, false⟩ ⟨2, 0, false⟩ = ⟨0, 0, true⟩ :=
  C8_zero_denominator_identity curve523 ⟨2, 0, false⟩ ⟨2, 0, false⟩
    (by norm_num [curve523]) (by norm_num [curve523]) rfl rfl
    (by norm_num [curve523]) (by norm_num [curve523]) (by norm_num [curve523])
    (Or.inl ⟨by decide, by decide⟩)

/-! ## C4: the extended Euclidean inverse -/

namespace Finite

/-- Invariant proof for the Euclid loop of `Inverse`: starting from a
state whose remainders are nonnegative, linear combinations of which
recover `p` and `a`, and whose Bézout rows satisfy `t·a ≡ r (mod p)`,
the loop terminates on a positive final remainder that divides both `p`
and `a` and still satisfies the Bézout congruence. -/
lemma inverseLoop_spec (p a : Int) :
    ∀ (fuel : Nat) (t newT r newR : Int),
      newR.natAbs < fuel → 0 < r → 0 ≤ newR →
      p ∣ (t * a - r) → p ∣ (newT * a - newR) →
      (∀ d : Int, d ∣ r → d ∣ newR → d ∣ p ∧ d ∣ a) →
      ∃ tf rf, inverseLoop fuel t newT r newR = (tf, rf) ∧ 0 < rf ∧
        p ∣ (tf * a - rf) ∧ rf ∣ p ∧ rf ∣ a := by
  intro fuel
  induction fuel with
  | zero => intro t newT r newR hfuel; omega
  | succ n ih =>
    intro t newT r newR hfuel hr hnewR ht hnewT hclose
    by_cases h0 : newR = 0
    · refine ⟨t, r, ?_, hr, ht, (hclose r dvd_rfl (h0 ▸ dvd_zero r)).1,
        (hclose r dvd_rfl (h0 ▸ dvd_zero r)).2⟩
      simp [inverseLoop, h0]
    · have hpos : 0 < newR := by omega
      have htm : r - r.tdiv newR * newR = r.tmod newR := by
        have := Int.tmod_add_tdiv r newR
        linarith [this]
      have htm0 : 0 ≤ r.tmod newR := Int.tmod_nonneg newR (by omega)
      have htm1 : r.tmod newR < newR := Int.tmod_lt_of_pos r hpos
      have hstep : inverseLoop (n + 1) t newT r newR =
          inverseLoop n newT (t - r.tdiv newR * newT) newR (r - r.tdiv newR * newR) := by
        simp [inverseLoop, h0]
      rw [hstep]
      refine ih newT (t - r.tdiv newR * newT) newR (r - r.tdiv newR * newR)
        (by rw [htm]; omega) hpos (by rw [htm]; omega) hnewT ?_ ?_
      · have : (t - r.tdiv newR * newT) * a - (r - r.tdiv newR * newR) =
            (t * a - r) - r.tdiv newR * (newT * a - newR) := by ring
        rw [this]
        exact dvd_sub ht (Dvd.dvd.mul_left hnewT _)
      · intro d hd1 hd2
        have hdr : d ∣ r := by
          have : r = (r - r.tdiv newR * newR) + r.tdiv newR * newR := by ring
          rw [this]
          exact dvd_add hd2 (Dvd.dvd.mul_left hd1 _)
        exact hclose d hdr hd1

/-- For `0 ≤ i < p`, the Go expression `i % p` is `i` itself. -/
lemma tmod_self_of_range {p i : Int} (h0 : 0 ≤ i) (h1 : i < p) : i.tmod p = i := by
  rw [Int.tmod_eq_emod h0 (by omega), Int.emod_eq_of_lt h0 h1]

end Finite

/-- **C4 (counterexample).**  The claim quantifies over all `i` with
`|i| < p`.  For `p = 3`, `i = -1` (canonical representative `2`, which
is coprime to `3`), `Inverse` succeeds as the claim requires — but it
returns `1`, and `Multiply(-1, 1) = 2 ≠ 1`: the loop starts from the
Go remainder `i % p = -1`, ends with remainder `-1`, which passes the
`r > 1` check, and the Bézout coefficient it canonicalizes inverts
`-i` rather than `i`. -/
theorem C4_counterexample :
    Finite.Inverse 3 (-1) = .ok 1 ∧ Finite.Multiply 3 (-1) 1 = 2 := by
  exact ⟨by rfl, by decide⟩

/-- Full specification of `Inverse` over a prime modulus on canonical
inputs: failure exactly at `0`, and a canonical modular inverse
otherwise. -/
lemma Finite.Inverse_spec (p i : Int) (hp : Prime p) (h2 : 2 ≤ p)
    (hp63 : p < 2 ^ 63) (hi0 : 0 ≤ i) (hip : i < p) :
    (i = 0 → Finite.Inverse p i = .error .notInvertible) ∧
    (0 < i → ∃ v, Finite.Inverse p i = .ok v ∧ 0 ≤ v ∧ v < p ∧
      Finite.Multiply p i v = 1) := by
  constructor
  · rintro rfl
    exact Finite.Inverse_zero h2
  · intro hipos
    obtain ⟨tf, rf, hloop, hrf, hbez, hrfp, hrfi⟩ :=
      Finite.inverseLoop_spec p i (p.natAbs + i.natAbs + 2) 0 1 p i
        (by omega) (by omega) hi0
        (by simp [dvd_neg])
        (by simp)
        (fun d h1 h2 => ⟨h1, h2⟩)
    have hrf1 : rf = 1 := by
      have hnat : rf.natAbs ∣ p.natAbs := Int.natAbs_dvd_natAbs.mpr hrfp
      have hprime : p.natAbs.Prime := Int.prime_iff_natAbs_prime.mp hp
      rcases (Nat.Prime.eq_one_or_self_of_dvd hprime rf.natAbs hnat) with h | h
      · omega
      · exfalso
        have : rf = p := by omega
        rw [this] at hrfi
        have := Int.le_of_dvd hipos hrfi
        omega
    subst hrf1
    have hInv : Finite.Inverse p i = .ok (Finite.Canonicalize p tf) := by
      unfold Finite.Inverse
      rw [Finite.tmod_self_of_range hi0 hip, hloop]
      norm_num
    refine ⟨Finite.Canonicalize p tf, hInv,
      Finite.Canonicalize_nonneg (by omega) tf, Finite.Canonicalize_lt (by omega) tf, ?_⟩
    have hv : Finite.Canonicalize p tf = tf % p := Finite.Canonicalize_eq (by omega) tf
    have h1 : 0 ≤ tf % p := Int.emod_nonneg tf (by omega)
    have h2 : tf % p < p := Int.emod_lt_of_pos tf (by omega)
    rw [hv, Finite.Multiply_eq (by omega) hp63 (by omega) (by omega) (by omega) (by omega)]
    have hmod : (i * (tf % p)) % p = (i * tf) % p := by
      conv_lhs => rw [Int.mul_emod]
      rw [Int.emod_emod_of_dvd tf dvd_rfl, ← Int.mul_emod]
    rw [hmod]
    have hcong : (1 : ℤ) ≡ tf * i [ZMOD p] := (Int.modEq_iff_dvd).mpr (by simp [hbez])
    have hfin : (i * tf) % p = 1 % p := by
      have h3 := hcong.symm
      rw [Int.ModEq] at h3
      rw [mul_comm]
      exact h3
    rw [hfin, Int.emod_eq_of_lt (by omega) (by omega)]

/-- **C4 (amended).**  For every prime `p` with `2 ≤ p < 2^63` and
every canonical `i` (`0 ≤ i < p`), `Inverse` fails with the
not-invertible error exactly when `i = 0` (for prime `p` the gcd of `i`
and `p` differs from 1 exactly then), and when it succeeds the result
`v` is in `[0, p)` and satisfies `Multiply p i v = 1`. -/
theorem C4_inverse_correct (p i : Int) (hp : Prime p) (h2 : 2 ≤ p)
    (hp63 : p < 2 ^ 63) (hi0 : 0 ≤ i) (hip : i < p) :
    (i = 0 → Finite.Inverse p i = .error .notInvertible) ∧
    (0 < i → ∃ v, Finite.Inverse p i = .ok v ∧ 0 ≤ v ∧ v < p ∧
      Finite.Multiply p i v = 1) :=
  Finite.Inverse_spec p i hp h2 hp63 hi0 hip

/-- Witness for C4 at `p = 7`, `i = 3` (inverse `5`) and `i = 0`. -/
theorem C4_inverse_correct_witness :
    Finite.Inverse 7 0 = .error .notInvertible ∧
    ∃ v, Finite.Inverse 7 3 = .ok v ∧ 0 ≤ v ∧ v < 7 ∧ Finite.Multiply 7 3 v = 1 := by
  refine ⟨(C4_inverse_correct 7 0 (by norm_num) (by norm_num) (by norm_num)
      (by norm_num) (by norm_num)).1 rfl,
    (C4_inverse_correct 7 3 (by norm_num) (by norm_num) (by norm_num)
      (by norm_num) (by norm_num)).2 (by norm_num)⟩

/-! ## Bridge from the int64 field model to `ZMod` -/

lemma intCast_emod_self (a : ℤ) (n : ℕ) : (((a % (n : ℤ)) : ℤ) : ZMod n) = (a : ZMod n) := by
  rw [ZMod.intCast_eq_intCast_iff]
  exact Int.emod_emod_of_dvd a dvd_rfl

lemma intCast_inj_of_range {n : ℕ} {a b : ℤ} (h1 : 0 ≤ a) (h2 : a < (n : ℤ))
    (h3 : 0 ≤ b) (h4 : b < (n : ℤ)) (h : (a : ZMod n) = (b : ZMod n)) : a = b := by
  rw [ZMod.intCast_eq_intCast_iff, Int.ModEq, Int.emod_eq_of_lt h1 h2,
    Int.emod_eq_of_lt h3 h4] at h
  exact h

lemma intCast_ne_zero_of_range {n : ℕ} {a : ℤ} (h1 : 0 < a) (h2 : a < (n : ℤ)) :
    (a : ZMod n) ≠ 0 := by
  intro h
  rw [ZMod.intCast_zmod_eq_zero_iff_dvd] at h
  have := Int.le_of_dvd h1 h
  omega

lemma zmod_Add {n : ℕ} (h63 : (n : ℤ) < 2 ^ 63) {i j : ℤ} (hn : 0 < (n : ℤ))
    (hi : -(n : ℤ) ≤ i) (hi63 : i < 2 ^ 63) (hj : -(n : ℤ) ≤ j) (hj63 : j < 2 ^ 63) :
    ((Finite.Add (n : ℤ) i j : ℤ) : ZMod n) = (i : ZMod n) + (j : ZMod n) := by
  rw [Finite.Add_eq hn h63 hi hi63 hj hj63, intCast_emod_self]
  push_cast
  ring

lemma zmod_Multiply {n : ℕ} (h63 : (n : ℤ) < 2 ^ 63) {i j : ℤ} (hn : 0 < (n : ℤ))
    (hi : -(n : ℤ) ≤ i) (hi63 : i < 2 ^ 63) (hj : -(n : ℤ) ≤ j) (hj63 : j < 2 ^ 63) :
    ((Finite.Multiply (n : ℤ) i j : ℤ) : ZMod n) = (i : ZMod n) * (j : ZMod n) := by
  rw [Finite.Multiply_eq hn h63 hi hi63 hj hj63, intCast_emod_self]
  push_cast
  ring

/-- For `0 ≤ k < 2^63` the Go bit test agrees with `Nat.testBit`. -/
lemma goBit_eq {k : ℤ} (h0 : 0 ≤ k) (h1 : k < 2 ^ 63) (b : Nat) :
    goBit k b = k.toNat.testBit b := by
  unfold goBit uint64
  rw [Int.emod_eq_of_lt h0 (by omega)]

namespace Finite

/-- Square-and-multiply invariant: after `fuel` iterations starting at
bit `b`, the accumulator picks up `i` raised to the bits of `j` in the
window `[b, b + fuel)`. -/
lemma expLoop_spec {n : ℕ} (hn : 2 ≤ (n : ℤ)) (h63 : (n : ℤ) < 2 ^ 63)
    {j : ℤ} (hj0 : 0 ≤ j) (hj1 : j < 2 ^ 63) :
    ∀ (fuel b : Nat) (r i : ℤ), 0 ≤ r → r < (n : ℤ) → 0 ≤ i → i < (n : ℤ) →
      (0 ≤ expLoop (n : ℤ) j fuel b r i ∧ expLoop (n : ℤ) j fuel b r i < (n : ℤ)) ∧
      ((expLoop (n : ℤ) j fuel b r i : ZMod n) =
        (r : ZMod n) * (i : ZMod n) ^ (j.toNat / 2 ^ b % 2 ^ fuel)) := by
  intro fuel
  induction fuel with
  | zero =>
    intro b r i hr0 hr1 hi0 hi1
    refine ⟨⟨hr0, hr1⟩, ?_⟩
    simp [expLoop, Nat.mod_one]
  | succ m ih =>
    intro b r i hr0 hr1 hi0 hi1
    have hnn : 0 < (n : ℤ) := by omega
    have hsq := Multiply_range (p := (n : ℤ)) (i := i) (j := i) hnn h63
      (by omega) (by omega) (by omega) (by omega)
    have hr' : 0 ≤ (if goBit j b then Multiply (n : ℤ) r i else r) ∧
        (if goBit j b then Multiply (n : ℤ) r i else r) < (n : ℤ) := by
      split
      · exact Multiply_range hnn h63 (by omega) (by omega) (by omega) (by omega)
      · exact ⟨hr0, hr1⟩
    have hstep : expLoop (n : ℤ) j (m + 1) b r i =
        expLoop (n : ℤ) j m (b + 1) (if goBit j b then Multiply (n : ℤ) r i else r)
          (Multiply (n : ℤ) i i) := rfl
    obtain ⟨hrange, hcast⟩ := ih (b + 1)
      (if goBit j b then Multiply (n : ℤ) r i else r) (Multiply (n : ℤ) i i)
      hr'.1 hr'.2 hsq.1 hsq.2
    rw [hstep]
    refine ⟨hrange, ?_⟩
    rw [hcast]
    have hdd : j.toNat / 2 ^ b / 2 = j.toNat / 2 ^ (b + 1) := by
      rw [Nat.div_div_eq_div_mul, ← pow_succ]
    have hsplit : j.toNat / 2 ^ b % 2 ^ (m + 1) =
        j.toNat / 2 ^ b % 2 + 2 * (j.toNat / 2 ^ (b + 1) % 2 ^ m) := by
      rw [pow_succ (a := (2 : ℕ)) (n := m), mul_comm ((2 : ℕ) ^ m) 2, Nat.mod_mul, hdd]
    have hbit : goBit j b = decide (j.toNat / 2 ^ b % 2 = 1) := by
      rw [goBit_eq hj0 hj1, Nat.testBit_to_div_mod]
    have hmul : ((Multiply (n : ℤ) i i : ℤ) : ZMod n) = (i : ZMod n) * (i : ZMod n) :=
      zmod_Multiply h63 hnn (by omega) (by omega) (by omega) (by omega)
    rw [hsplit]
    rcases Nat.mod_two_eq_zero_or_one (j.toNat / 2 ^ b) with hb | hb
    · have hgo : goBit j b = false := by rw [hbit, hb]; simp
      rw [hgo, if_neg (by simp), hmul, hb, zero_add, ← pow_two, ← pow_mul]
    · have hgo : goBit j b = true := by rw [hbit, hb]; simp
      have hri : ((Multiply (n : ℤ) r i : ℤ) : ZMod n) = (r : ZMod n) * (i : ZMod n) :=
        zmod_Multiply h63 hnn (by omega) (by omega) (by omega) (by omega)
      rw [hgo, if_pos rfl, hri, hmul, hb, ← pow_two, ← pow_mul, pow_add, pow_one]
      ring

/-- `Exponentiate` computes `i ^ j mod n` for canonical `i` and
`0 ≤ j < 2^63`, and its result is canonical. -/
lemma Exponentiate_spec {n : ℕ} (hn : 2 ≤ (n : ℤ)) (h63 : (n : ℤ) < 2 ^ 63)
    {i j : ℤ} (hi0 : 0 ≤ i) (hi1 : i < (n : ℤ)) (hj0 : 0 ≤ j) (hj1 : j < 2 ^ 63) :
    (0 ≤ Exponentiate (n : ℤ) i j ∧ Exponentiate (n : ℤ) i j < (n : ℤ)) ∧
    ((Exponentiate (n : ℤ) i j : ℤ) : ZMod n) = (i : ZMod n) ^ j.toNat := by
  obtain ⟨hrange, hcast⟩ := expLoop_spec hn h63 hj0 hj1 64 0 1 i
    (by omega) (by omega) hi0 hi1
  have hcan : Exponentiate (n : ℤ) i j = expLoop (n : ℤ) j 64 0 1 i := by
    unfold Exponentiate
    rw [Canonicalize_eq (by omega), Int.emod_eq_of_lt hrange.1 hrange.2]
  rw [hcan]
  refine ⟨hrange, ?_⟩
  rw [hcast]
  have hexp : j.toNat / 2 ^ 0 % 2 ^ 64 = j.toNat := by
    have : j.toNat < 2 ^ 64 := by omega
    omega
  rw [hexp]
  simp

end Finite

/-! ## C5: square roots -/

namespace Finite

/-- Success case of `Sqrt`: `i` a square mod `P`, `P ≡ 3 (mod 4)`. -/
lemma Sqrt_of_isSquare {P : ℕ} [hPP : Fact P.Prime] {i : ℤ}
    (hp63 : (P : ℤ) < 2 ^ 63) (hP4 : P % 4 = 3) (hi0 : 0 ≤ i) (hip : i < (P : ℤ))
    (hsq : IsSquare ((i : ℤ) : ZMod P)) :
    ∃ s, Sqrt (P : ℤ) i = .ok s ∧
      Multiply (P : ℤ) s s = Canonicalize (P : ℤ) i := by
  have hP3 : 3 ≤ P := by
    have := hPP.out.two_le
    omega
  have htm3 : ((P : ℤ)).tmod 4 = 3 := by
    rw [Int.tmod_eq_emod (by omega) (by omega)]
    omega
  by_cases hz : i = 0
  · subst hz
    refine ⟨0, ?_, ?_⟩
    · unfold Sqrt
      rw [if_neg (by simp [htm3]), if_pos rfl]
    · rw [Multiply_eq (by omega) hp63 (by omega) (by omega) (by omega) (by omega),
        Canonicalize_eq (by omega)]
      norm_num
  · have hipos : 0 < i := by omega
    have ha : ((i : ℤ) : ZMod P) ≠ 0 := intCast_ne_zero_of_range hipos hip
    have heuler := (ZMod.euler_criterion P ha).mp hsq
    have he4 : 4 * (((P : ℤ) + 1).tdiv 4) = (P : ℤ) + 1 := by
      rw [Int.tdiv_eq_ediv (by omega) (by omega)]
      omega
    have he0 : 0 ≤ ((P : ℤ) + 1).tdiv 4 := by omega
    have he63 : ((P : ℤ) + 1).tdiv 4 < 2 ^ 63 := by omega
    obtain ⟨⟨hx0, hx1⟩, hxcast⟩ :=
      Exponentiate_spec (n := P) (j := ((P : ℤ) + 1).tdiv 4) (by omega) hp63 hi0 hip he0 he63
    set x : ℤ := Exponentiate (P : ℤ) i (((P : ℤ) + 1).tdiv 4) with hxdef
    have h2et : 2 * (((P : ℤ) + 1).tdiv 4).toNat = P / 2 + 1 := by omega
    have hjeq : ((Multiply (P : ℤ) x x : ℤ) : ZMod P) =
        ((i : ℤ) : ZMod P) ^ (P / 2) * ((i : ℤ) : ZMod P) := by
      rw [zmod_Multiply hp63 (by omega) (by omega) (by omega) (by omega) (by omega),
        hxcast, ← pow_add,
        show (((P : ℤ) + 1).tdiv 4).toNat + (((P : ℤ) + 1).tdiv 4).toNat =
          2 * (((P : ℤ) + 1).tdiv 4).toNat by ring,
        h2et, pow_add, pow_one]
    obtain ⟨hj0, hj1⟩ := Multiply_range (p := (P : ℤ)) (i := x) (j := x)
      (by omega) hp63 (by omega) (by omega) (by omega) (by omega)
    have hij : i = Multiply (P : ℤ) x x := by
      refine intCast_inj_of_range hi0 hip hj0 hj1 ?_
      rw [hjeq, heuler, one_mul]
    refine ⟨x, ?_, ?_⟩
    · unfold Sqrt
      rw [if_neg (by simp [htm3]), if_neg hz]
      show (if i = Multiply (P : ℤ) x x then Except.ok (Canonicalize (P : ℤ) x)
        else Except.error Err.notQuadraticResidue) = Except.ok x
      rw [if_pos hij, Canonicalize_eq (by omega), Int.emod_eq_of_lt hx0 hx1]
    · rw [← hij, Canonicalize_eq (by omega), Int.emod_eq_of_lt hi0 hip]

/-- Failure case of `Sqrt`: `i ≠ 0` not a square mod `P`,
`P ≡ 3 (mod 4)`: the final verification `x² = i` fails. -/
lemma Sqrt_of_not_isSquare {P : ℕ} [hPP : Fact P.Prime] {i : ℤ}
    (hp63 : (P : ℤ) < 2 ^ 63) (hP4 : P % 4 = 3) (hi0 : 0 ≤ i) (hip : i < (P : ℤ))
    (hz : i ≠ 0) (hsq : ¬ IsSquare ((i : ℤ) : ZMod P)) :
    Sqrt (P : ℤ) i = .error .notQuadraticResidue := by
  have hP3 : 3 ≤ P := by
    have := hPP.out.two_le
    omega
  have hPodd : P % 2 = 1 := by omega
  have htm3 : ((P : ℤ)).tmod 4 = 3 := by
    rw [Int.tmod_eq_emod (by omega) (by omega)]
    omega
  have hipos : 0 < i := by omega
  have ha : ((i : ℤ) : ZMod P) ≠ 0 := intCast_ne_zero_of_range hipos hip
  have heuler : ((i : ℤ) : ZMod P) ^ (P / 2) ≠ 1 :=
    fun h => hsq ((ZMod.euler_criterion P ha).mpr h)
  have hsq1 : ((i : ℤ) : ZMod P) ^ (P / 2) * ((i : ℤ) : ZMod P) ^ (P / 2) = 1 := by
    rw [← pow_add, show P / 2 + P / 2 = P - 1 by omega]
    exact ZMod.pow_card_sub_one_eq_one ha
  have hneg1 : ((i : ℤ) : ZMod P) ^ (P / 2) = -1 :=
    (mul_self_eq_one_iff.mp hsq1).resolve_left heuler
  have he4 : 4 * (((P : ℤ) + 1).tdiv 4) = (P : ℤ) + 1 := by
    rw [Int.tdiv_eq_ediv (by omega) (by omega)]
    omega
  have he0 : 0 ≤ ((P : ℤ) + 1).tdiv 4 := by omega
  have he63 : ((P : ℤ) + 1).tdiv 4 < 2 ^ 63 := by omega
  obtain ⟨⟨hx0, hx1⟩, hxcast⟩ :=
    Exponentiate_spec (n := P) (j := ((P : ℤ) + 1).tdiv 4) (by omega) hp63 hi0 hip he0 he63
  set x : ℤ := Exponentiate (P : ℤ) i (((P : ℤ) + 1).tdiv 4) with hxdef
  have h2et : 2 * (((P : ℤ) + 1).tdiv 4).toNat = P / 2 + 1 := by omega
  have hjeq : ((Multiply (P : ℤ) x x : ℤ) : ZMod P) = -((i : ℤ) : ZMod P) := by
    rw [zmod_Multiply hp63 (by omega) (by omega) (by omega) (by omega) (by omega),
      hxcast, ← pow_add,
      show (((P : ℤ) + 1).tdiv 4).toNat + (((P : ℤ) + 1).tdiv 4).toNat =
        2 * (((P : ℤ) + 1).tdiv 4).toNat by ring,
      h2et, pow_add, pow_one, hneg1]
    ring
  have htwo : ((2 : ℕ) : ZMod P) ≠ 0 := by
    intro h
    rw [ZMod.natCast_zmod_eq_zero_iff_dvd] at h
    have := Nat.le_of_dvd (by norm_num) h
    omega
  have hij : i ≠ Multiply (P : ℤ) x x := by
    intro h
    have hcasteq : ((i : ℤ) : ZMod P) = -((i : ℤ) : ZMod P) := by
      rw [← hjeq, ← h]
    have hadd : ((i : ℤ) : ZMod P) + ((i : ℤ) : ZMod P) = 0 :=
      eq_neg_iff_add_eq_zero.mp hcasteq
    have h2a : ((2 : ℕ) : ZMod P) * ((i : ℤ) : ZMod P) = 0 := by
      push_cast
      rw [two_mul]
      exact hadd
    rcases mul_eq_zero.mp h2a with h | h
    · exact htwo h
    · exact ha h
  unfold Sqrt
  rw [if_neg (by simp [htm3]), if_neg hz]
  show (if i = Multiply (P : ℤ) x x then Except.ok (Canonicalize (P : ℤ) x)
    else Except.error Err.notQuadraticResidue) = Except.error Err.notQuadraticResidue
  rw [if_neg hij]

end Finite

/-- **C5.**  Over a prime field with `p ≡ 3 (mod 4)`, `Sqrt` succeeds
on every quadratic residue `i ∈ [0, p)` with a root `s` satisfying
`Multiply s s = Canonicalize i`, fails with the not-a-square error on
every non-residue in `[0, p)`, and fails with the unsupported-field
error whenever `p mod 4 ≠ 3`. -/
theorem C5_sqrt_spec (p i : Int) (hp : Prime p) (h2 : 2 ≤ p) (hp63 : p < 2 ^ 63)
    (hi0 : 0 ≤ i) (hip : i < p) :
    (p % 4 = 3 → IsQR p i →
      ∃ s, Finite.Sqrt p i = .ok s ∧ Finite.Multiply p s s = Finite.Canonicalize p i) ∧
    (p % 4 = 3 → ¬ IsQR p i → Finite.Sqrt p i = .error .notQuadraticResidue) ∧
    (p % 4 ≠ 3 → Finite.Sqrt p i = .error .unsupportedField) := by
  obtain ⟨P, rfl⟩ : ∃ P : ℕ, (P : ℤ) = p := ⟨p.toNat, Int.toNat_of_nonneg (by omega)⟩
  haveI hPP : Fact P.Prime := ⟨by
    have h := Int.prime_iff_natAbs_prime.mp hp
    simpa using h⟩
  have hQR : IsQR (P : ℤ) i ↔ IsSquare ((i : ℤ) : ZMod P) := by
    constructor
    · rintro ⟨w, hw⟩
      refine ⟨(w : ZMod P), ?_⟩
      have hcast : ((w * w : ℤ) : ZMod P) = ((i : ℤ) : ZMod P) := by
        rw [ZMod.intCast_eq_intCast_iff]
        exact hw
      push_cast at hcast
      exact hcast.symm
    · rintro ⟨c, hc⟩
      haveI : NeZero P := ⟨by omega⟩
      refine ⟨(c.val : ℤ), ?_⟩
      rw [← ZMod.intCast_eq_intCast_iff]
      push_cast
      rw [ZMod.natCast_val, ZMod.cast_id]
      exact hc.symm
  refine ⟨?_, ?_, ?_⟩
  · intro hmod4 hQRi
    exact Finite.Sqrt_of_isSquare hp63 (by omega) hi0 hip (hQR.mp hQRi)
  · intro hmod4 hQRi
    have hz : i ≠ 0 := by
      rintro rfl
      exact hQRi ⟨0, by simp [Int.ModEq]⟩
    exact Finite.Sqrt_of_not_isSquare hp63 (by omega) hi0 hip hz (fun h => hQRi (hQR.mpr h))
  · intro hmod4
    unfold Finite.Sqrt
    rw [if_pos (by rw [Int.tmod_eq_emod (by omega) (by omega)]; exact hmod4)]

/-- Witness for C5: `2` is a quadratic residue mod `7` (`3² ≡ 2`),
`3` is not, and `5 ≢ 3 (mod 4)` is unsupported. -/
theorem C5_sqrt_spec_witness :
    (∃ s, Finite.Sqrt 7 2 = .ok s ∧ Finite.Multiply 7 s s = Finite.Canonicalize 7 2) ∧
    Finite.Sqrt 7 3 = .error .notQuadraticResidue ∧
    Finite.Sqrt 5 1 = .error .unsupportedField := by
  have hnotqr : ¬ IsQR 7 3 := by
    rintro ⟨w, hw⟩
    rw [Int.ModEq, Int.mul_emod] at hw
    have h0 : 0 ≤ w % 7 := Int.emod_nonneg w (by norm_num)
    have h1 : w % 7 < 7 := Int.emod_lt_of_pos w (by norm_num)
    set r := w % 7 with hr
    interval_cases r <;> omega
  refine ⟨(C5_sqrt_spec 7 2 (by norm_num) (by norm_num) (by norm_num) (by norm_num)
      (by norm_num)).1 (by norm_num) ⟨3, by decide⟩,
    (C5_sqrt_spec 7 3 (by norm_num) (by norm_num) (by norm_num) (by norm_num)
      (by norm_num)).2.1 (by norm_num) hnotqr,
    (C5_sqrt_spec 5 1 (by norm_num) (by norm_num) (by norm_num) (by norm_num)
      (by norm_num)).2.2 (by norm_num)⟩

/-! ## C2: nonce-reuse key recovery -/

namespace ecdsa

lemma truncate_nonneg (b : List Nat) (bs : Int) : 0 ≤ truncate b bs := by
  have hfold : ∀ (l : List Nat) (acc : Int), 0 ≤ acc →
      0 ≤ l.foldl (fun (acc : Int) (v : Nat) => acc * 256 + (v : Int)) acc := by
    intro l
    induction l with
    | nil => intro acc hacc; exact hacc
    | cons x xs ih => intro acc hacc; exact ih _ (by positivity)
  simp only [truncate]
  split
  · exact Int.ediv_nonneg (hfold _ 0 le_rfl) (by positivity)
  · exact hfold _ 0 le_rfl

/-- Anatomy of a successful `rawSign`: the returned `r` and `s` are
canonical and nonzero, and `s` is built from the inverse of `k` by the
published formula. -/
lemma rawSign_ok_spec {c : ec.Curve} {d k : Int} {h : List Nat} {r s : Int}
    (hN : Prime c.N) (h2 : 2 ≤ c.N) (h63 : c.N < 2 ^ 63)
    (hk1 : 1 ≤ k) (hk2 : k < c.N)
    (hd1 : -c.N ≤ d) (hd63 : d < 2 ^ 63)
    (hz63 : truncate h c.BS < 2 ^ 63)
    (hsig : rawSign (generateKey c d) k h = .ok (r, s)) :
    1 ≤ r ∧ r < c.N ∧ 1 ≤ s ∧ s < c.N ∧
    r = Finite.Canonicalize c.N ((c.ScalarM k c.G).X) ∧
    ∃ v, Finite.Inverse c.N k = .ok v ∧ 0 ≤ v ∧ v < c.N ∧
      Finite.Multiply c.N k v = 1 ∧
      s = Finite.Multiply c.N v
        (Finite.Add c.N (truncate h c.BS) (Finite.Multiply c.N r d)) := by
  obtain ⟨v, hv, hv0, hv1, hvmul⟩ :=
    (Finite.Inverse_spec c.N k hN h2 h63 (by omega) hk2).2 (by omega)
  simp only [rawSign, generateKey, hv] at hsig
  set r0 := Finite.Canonicalize c.N (c.ScalarM k c.G).X with hr0def
  have hr00 : 0 ≤ r0 := Finite.Canonicalize_nonneg (by omega) _
  have hr01 : r0 < c.N := Finite.Canonicalize_lt (by omega) _
  by_cases h0 : r0 = 0
  · rw [if_pos h0] at hsig
    simp at hsig
  · rw [if_neg h0] at hsig
    have hz0 := truncate_nonneg h c.BS
    set s0 := Finite.Multiply c.N v
      (Finite.Add c.N (truncate h c.BS) (Finite.Multiply c.N r0 d)) with hs0def
    by_cases hs : s0 = 0
    · rw [if_pos hs] at hsig
      simp at hsig
    · rw [if_neg hs] at hsig
      simp only [Except.ok.injEq, Prod.mk.injEq] at hsig
      obtain ⟨hr2, hs2⟩ := hsig
      subst hr2
      subst hs2
      have hmuld : -c.N ≤ Finite.Multiply c.N r0 d ∧ Finite.Multiply c.N r0 d < 2 ^ 63 := by
        have := Finite.Multiply_range (p := c.N) (i := r0) (j := d)
          (by omega) h63 (by omega) (by omega) (by omega) (by omega)
        omega
      have hadd : 0 ≤ Finite.Add c.N (truncate h c.BS) (Finite.Multiply c.N r0 d) ∧
          Finite.Add c.N (truncate h c.BS) (Finite.Multiply c.N r0 d) < c.N := by
        exact Finite.Add_range (by omega) h63 (by omega) (by omega) hmuld.1 hmuld.2
      have hs0r : 0 ≤ s0 ∧ s0 < c.N := by
        rw [hs0def]
        exact Finite.Multiply_range (by omega) h63 (by omega) (by omega)
          (by omega) (by omega)
      exact ⟨by omega, hr01, by omega, hs0r.2, rfl, v, hv, hv0, hv1, hvmul, rfl⟩

end ecdsa

/-- **C2 (amended).**  For every curve with prime generator order
`2 ≤ N < 2^63`, private key `d ∈ [1, N)`, nonce `k ∈ [1, N)`, and
digests `h1 ≠ h2` whose truncations `z1, z2` are distinct and lie in
`[0, N)`, if `rawSign` succeeds on both digests with the same `k`
(giving `(r, s1)` and `(r, s2)` — the `r` is the same automatically),
then `solve` succeeds and returns exactly `d`. -/
theorem C2_nonce_reuse_recovery (c : ec.Curve) (d k : Int) (h1 h2 : List Nat)
    (r s1 s2 : Int)
    (hN : Prime c.N) (hN2 : 2 ≤ c.N) (h63 : c.N < 2 ^ 63)
    (hd1 : 1 ≤ d) (hd2 : d < c.N) (hk1 : 1 ≤ k) (hk2 : k < c.N)
    (hz1N : ecdsa.truncate h1 c.BS < c.N) (hz2N : ecdsa.truncate h2 c.BS < c.N)
    (hzne : ecdsa.truncate h1 c.BS ≠ ecdsa.truncate h2 c.BS)
    (hsig1 : ecdsa.rawSign (ecdsa.generateKey c d) k h1 = .ok (r, s1))
    (hsig2 : ecdsa.rawSign (ecdsa.generateKey c d) k h2 = .ok (r, s2)) :
    ecdsa.solve c r s1 s2 h1 h2 = .ok d := by
  obtain ⟨hr1, hrN, hs11, hs1N, -, v, hv, hv0, hv1, hvk, hs1eq⟩ :=
    ecdsa.rawSign_ok_spec hN hN2 h63 hk1 hk2 (by omega) (by omega) (by omega) hsig1
  obtain ⟨hr1b, hrNb, hs21, hs2N, -, v2, hv2, hv20, hv21, hvk2, hs2eq⟩ :=
    ecdsa.rawSign_ok_spec hN hN2 h63 hk1 hk2 (by omega) (by omega) (by omega) hsig2
  have hvv : v = v2 := by
    have h := hv.symm.trans hv2
    simpa using h
  subst hvv
  obtain ⟨P, hP⟩ : ∃ P : ℕ, (P : ℤ) = c.N := ⟨c.N.toNat, Int.toNat_of_nonneg (by omega)⟩
  haveI : Fact P.Prime := ⟨by
    have hh := Int.prime_iff_natAbs_prime.mp hN
    rw [← hP] at hh
    simpa using hh⟩
  have hP63 : (P : ℤ) < 2 ^ 63 := by omega
  have hPpos : 0 < (P : ℤ) := by omega
  have castMul : ∀ {i j : ℤ}, -c.N ≤ i → i < 2 ^ 63 → -c.N ≤ j → j < 2 ^ 63 →
      ((Finite.Multiply c.N i j : ℤ) : ZMod P) = (i : ZMod P) * (j : ZMod P) := by
    intro i j hi hi63 hj hj63
    rw [← hP] at hi hj ⊢
    exact zmod_Multiply hP63 hPpos hi hi63 hj hj63
  have castAdd : ∀ {i j : ℤ}, -c.N ≤ i → i < 2 ^ 63 → -c.N ≤ j → j < 2 ^ 63 →
      ((Finite.Add c.N i j : ℤ) : ZMod P) = (i : ZMod P) + (j : ZMod P) := by
    intro i j hi hi63 hj hj63
    rw [← hP] at hi hj ⊢
    exact zmod_Add hP63 hPpos hi hi63 hj hj63
  have castInj : ∀ {i j : ℤ}, 0 ≤ i → i < c.N → 0 ≤ j → j < c.N →
      (i : ZMod P) = (j : ZMod P) → i = j := by
    intro i j hi0 hi1 hj0 hj1 hc
    rw [← hP] at hi1 hj1
    exact intCast_inj_of_range hi0 hi1 hj0 hj1 hc
  have castNe : ∀ {i : ℤ}, 0 < i → i < c.N → (i : ZMod P) ≠ 0 := by
    intro i hi0 hi1
    rw [← hP] at hi1
    exact intCast_ne_zero_of_range hi0 hi1
  simp only [ecdsa.solve]
  set z1 := ecdsa.truncate h1 c.BS with hz1def
  set z2 := ecdsa.truncate h2 c.BS with hz2def
  have hz10 : 0 ≤ z1 := ecdsa.truncate_nonneg h1 c.BS
  have hz20 : 0 ≤ z2 := ecdsa.truncate_nonneg h2 c.BS
  -- the casts of the two signatures
  have hak : (k : ZMod P) ≠ 0 := castNe (by omega) hk2
  have har : (r : ZMod P) ≠ 0 := castNe (by omega) hrN
  have hzzne : (z2 : ZMod P) - (z1 : ZMod P) ≠ 0 := by
    refine sub_ne_zero_of_ne ?_
    intro h
    exact hzne (castInj hz10 hz1N hz20 hz2N h.symm)
  have hvc : (v : ZMod P) = (k : ZMod P)⁻¹ := by
    have h := congrArg (fun t : ℤ => (t : ZMod P)) hvk
    simp only at h
    rw [castMul (by omega) (by omega) (by omega) (by omega)] at h
    push_cast at h
    exact (inv_eq_of_mul_eq_one_right h).symm
  have hmulrange : ∀ {i j : ℤ}, -c.N ≤ i → i < 2 ^ 63 → -c.N ≤ j → j < 2 ^ 63 →
      0 ≤ Finite.Multiply c.N i j ∧ Finite.Multiply c.N i j < c.N :=
    fun hi hi63 hj hj63 => Finite.Multiply_range (by omega) h63 hi hi63 hj hj63
  have haddrange : ∀ {i j : ℤ}, -c.N ≤ i → i < 2 ^ 63 → -c.N ≤ j → j < 2 ^ 63 →
      0 ≤ Finite.Add c.N i j ∧ Finite.Add c.N i j < c.N :=
    fun hi hi63 hj hj63 => Finite.Add_range (by omega) h63 hi hi63 hj hj63
  have hrd := hmulrange (i := r) (j := d) (by omega) (by omega) (by omega) (by omega)
  have haddZ1 := haddrange (i := z1) (j := Finite.Multiply c.N r d)
    (by omega) (by omega) (by omega) (by omega)
  have haddZ2 := haddrange (i := z2) (j := Finite.Multiply c.N r d)
    (by omega) (by omega) (by omega) (by omega)
  have hs1c : (s1 : ZMod P) =
      (k : ZMod P)⁻¹ * ((z1 : ZMod P) + (r : ZMod P) * (d : ZMod P)) := by
    rw [hs1eq, castMul (by omega) (by omega) (by omega) (by omega),
      castAdd (by omega) (by omega) (by omega) (by omega),
      castMul (by omega) (by omega) (by omega) (by omega), hvc]
  have hs2c : (s2 : ZMod P) =
      (k : ZMod P)⁻¹ * ((z2 : ZMod P) + (r : ZMod P) * (d : ZMod P)) := by
    rw [hs2eq, castMul (by omega) (by omega) (by omega) (by omega),
      castAdd (by omega) (by omega) (by omega) (by omega),
      castMul (by omega) (by omega) (by omega) (by omega), hvc]
  have hwrange := haddrange (i := s2) (j := -s1) (by omega) (by omega) (by omega) (by omega)
  have hwc : ((Finite.Add c.N s2 (-s1) : ℤ) : ZMod P) =
      (k : ZMod P)⁻¹ * ((z2 : ZMod P) - (z1 : ZMod P)) := by
    rw [castAdd (by omega) (by omega) (by omega) (by omega)]
    push_cast
    rw [hs1c, hs2c]
    ring
  have hwne0 : Finite.Add c.N s2 (-s1) ≠ 0 := by
    intro h
    have hzero : ((Finite.Add c.N s2 (-s1) : ℤ) : ZMod P) = 0 := by rw [h]; simp
    rw [hwc] at hzero
    exact (mul_ne_zero (inv_ne_zero hak) hzzne) hzero
  obtain ⟨vw, hvw, hvw0, hvw1, hvwmul⟩ :=
    (Finite.Inverse_spec c.N (Finite.Add c.N s2 (-s1)) hN hN2 h63
      hwrange.1 hwrange.2).2 (by omega)
  obtain ⟨vr, hvr, hvr0, hvr1, hvrmul⟩ :=
    (Finite.Inverse_spec c.N r hN hN2 h63 (by omega) hrN).2 (by omega)
  have hvwc : (vw : ZMod P) = ((Finite.Add c.N s2 (-s1) : ℤ) : ZMod P)⁻¹ := by
    have hcast := congrArg (fun t : ℤ => (t : ZMod P)) hvwmul
    simp only at hcast
    rw [castMul (by omega) (by omega) (by omega) (by omega)] at hcast
    push_cast at hcast
    exact (inv_eq_of_mul_eq_one_right hcast).symm
  have hvrc : (vr : ZMod P) = ((r : ℤ) : ZMod P)⁻¹ := by
    have hcast := congrArg (fun t : ℤ => (t : ZMod P)) hvrmul
    simp only at hcast
    rw [castMul (by omega) (by omega) (by omega) (by omega)] at hcast
    push_cast at hcast
    exact (inv_eq_of_mul_eq_one_right hcast).symm
  simp only [hvw, hvr]
  have hAzrange := haddrange (i := z2) (j := -z1) (by omega) (by omega) (by omega) (by omega)
  have hAz : ((Finite.Add c.N z2 (-z1) : ℤ) : ZMod P) = (z2 : ZMod P) - (z1 : ZMod P) := by
    rw [castAdd (by omega) (by omega) (by omega) (by omega)]
    push_cast
    ring
  set k1 := Finite.Multiply c.N (Finite.Add c.N z2 (-z1)) vw with hk1def
  have hk1range := hmulrange (i := Finite.Add c.N z2 (-z1)) (j := vw)
    (by omega) (by omega) (by omega) (by omega)
  have hk1c : (k1 : ZMod P) = (k : ZMod P) := by
    rw [hk1def, castMul (by omega) (by omega) (by omega) (by omega), hAz, hvwc, hwc,
      mul_inv_rev, inv_inv, ← mul_assoc, mul_inv_cancel₀ hzzne, one_mul]
  have hs1k1 := hmulrange (i := s1) (j := k1) (by omega) (by omega) (by omega) (by omega)
  have hs2k1 := hmulrange (i := s2) (j := k1) (by omega) (by omega) (by omega) (by omega)
  have hA1range := haddrange (i := Finite.Multiply c.N s1 k1) (j := -z1)
    (by omega) (by omega) (by omega) (by omega)
  have hA2range := haddrange (i := Finite.Multiply c.N s2 k1) (j := -z2)
    (by omega) (by omega) (by omega) (by omega)
  have hD1range := hmulrange (i := Finite.Add c.N (Finite.Multiply c.N s1 k1) (-z1))
    (j := vr) (by omega) (by omega) (by omega) (by omega)
  have hD2range := hmulrange (i := Finite.Add c.N (Finite.Multiply c.N s2 k1) (-z2))
    (j := vr) (by omega) (by omega) (by omega) (by omega)
  have hA1 : ((Finite.Add c.N (Finite.Multiply c.N s1 k1) (-z1) : ℤ) : ZMod P) =
      (s1 : ZMod P) * (k1 : ZMod P) - (z1 : ZMod P) := by
    rw [castAdd (by omega) (by omega) (by omega) (by omega),
      castMul (by omega) (by omega) (by omega) (by omega)]
    push_cast
    ring
  have hA2 : ((Finite.Add c.N (Finite.Multiply c.N s2 k1) (-z2) : ℤ) : ZMod P) =
      (s2 : ZMod P) * (k1 : ZMod P) - (z2 : ZMod P) := by
    rw [castAdd (by omega) (by omega) (by omega) (by omega),
      castMul (by omega) (by omega) (by omega) (by omega)]
    push_cast
    ring
  have hD1c : ((Finite.Multiply c.N (Finite.Add c.N (Finite.Multiply c.N s1 k1) (-z1))
      vr : ℤ) : ZMod P) = (d : ZMod P) := by
    rw [castMul (by omega) (by omega) (by omega) (by omega), hA1, hvrc, hk1c, hs1c]
    field_simp
  have hD2c : ((Finite.Multiply c.N (Finite.Add c.N (Finite.Multiply c.N s2 k1) (-z2))
      vr : ℤ) : ZMod P) = (d : ZMod P) := by
    rw [castMul (by omega) (by omega) (by omega) (by omega), hA2, hvrc, hk1c, hs2c]
    field_simp
  have hD12 : Finite.Multiply c.N (Finite.Add c.N (Finite.Multiply c.N s1 k1) (-z1)) vr =
      Finite.Multiply c.N (Finite.Add c.N (Finite.Multiply c.N s2 k1) (-z2)) vr :=
    castInj hD1range.1 hD1range.2 hD2range.1 hD2range.2 (by rw [hD1c, hD2c])
  rw [if_neg (by simp [hD12])]
  have hfinal : Finite.Multiply c.N (Finite.Add c.N (Finite.Multiply c.N s1 k1) (-z1)) vr
      = d :=
    castInj hD1range.1 hD1range.2 (by omega) (by omega) (by rw [hD1c])
  rw [hfinal]

/-- **C2 (counterexample).**  The claim quantifies over every pair of
different digests.  Two digests that differ only in bits discarded by
`truncate` (here `BS = 8`, so only the first byte is kept) produce
identical signatures `(r, s)`; `solve` must then invert
`s2 - s1 = 0`, which fails, so the private key is not recovered. -/
theorem C2_counterexample :
    ([0x55, 0x00] : List Nat) ≠ [0x55, 0xff] ∧
    ecdsa.rawSign (ecdsa.generateKey curve479 23) 123 [0x55, 0x00] = .ok (62, 107) ∧
    ecdsa.rawSign (ecdsa.generateKey curve479 23) 123 [0x55, 0xff] = .ok (62, 107) ∧
    ecdsa.solve curve479 62 107 107 [0x55, 0x00] [0x55, 0xff] = .error .noInverse := by
  exact ⟨by decide, by rfl, by rfl, by rfl⟩

/-- Witness for C2 on `curve479` with `d = 23`, `k = 123` and the
digests `[0x49]` (`z1 = 73`) and `[0x55]` (`z2 = 85`). -/
theorem C2_nonce_reuse_recovery_witness :
    ecdsa.solve curve479 62 141 107 [0x49] [0x55] = .ok 23 :=
  C2_nonce_reuse_recovery curve479 23 123 [0x49] [0x55] 62 141 107
    (by norm_num [curve479]) (by norm_num [curve479]) (by norm_num [curve479])
    (by norm_num) (by norm_num [curve479]) (by norm_num) (by norm_num [curve479])
    (by decide) (by decide) (by decide) (by rfl) (by rfl)

namespace Wcurve

open WeierstrassCurve WeierstrassCurve.Affine

variable {P : ℕ} {A B : ℤ}

lemma negY_eq (x y : ZMod P) : (Wcurve P A B).negY x y = -y := by
  simp [Affine.negY, Wcurve]

lemma addX_eq (x1 x2 L : ZMod P) :
    (Wcurve P A B).addX x1 x2 L = L ^ 2 - x1 - x2 := by
  simp [Affine.addX, Wcurve]

lemma addY_eq (x1 x2 y1 L : ZMod P) :
    (Wcurve P A B).addY x1 x2 y1 L = L * (x1 - (Wcurve P A B).addX x1 x2 L) - y1 := by
  simp [Affine.addY, Affine.negAddY, Affine.negY, Affine.addX, Wcurve]
  ring

lemma equation_iff (x y : ZMod P) :
    (Wcurve P A B).Equation x y ↔ y ^ 2 = x ^ 3 + (A : ZMod P) * x + (B : ZMod P) := by
  rw [Affine.equation_iff]
  simp [Wcurve]

lemma nonsingular_iff (x y : ZMod P) :
    (Wcurve P A B).Nonsingular x y ↔ (Wcurve P A B).Equation x y ∧
      (3 * x ^ 2 + (A : ZMod P) ≠ 0 ∨ 2 * y ≠ 0) := by
  rw [Affine.nonsingular_iff']
  simp only [Wcurve]
  have e1 : (0 : ZMod P) * y - (3 * x ^ 2 + 2 * 0 * x + (A : ZMod P)) =
      -(3 * x ^ 2 + (A : ZMod P)) := by ring
  have e2 : (2 : ZMod P) * y + 0 * x + 0 = 2 * y := by ring
  rw [e1, e2, neg_ne_zero]

end Wcurve

lemma models_zero {P : ℕ} {A B : ℤ} : Models P A B ⟨0, 0, true⟩ 0 := Or.inl ⟨rfl, rfl⟩

/-- `Point.Equal` componentwise (shared helper for the group-law lemmas). -/
lemma ec.Point.Equal_spec (p q : ec.Point) :
    ec.Point.Equal p q = true ↔ p.X = q.X ∧ p.Y = q.Y ∧ p.Inf = q.Inf := by
  unfold ec.Point.Equal
  by_cases hx : p.X = q.X
  · by_cases hy : p.Y = q.Y
    · simp [hx, hy]
    · simp [hx, hy]
  · simp [hx]

/-- Transport of an affine point along coordinate equalities. -/
lemma wpoint_some_congr {P : ℕ} {A B : ℤ} {x1 y1 x2 y2 : ZMod P}
    (hx : x1 = x2) (hy : y1 = y2) (h : (Wcurve P A B).Nonsingular x1 y1) :
    ∃ h2 : (Wcurve P A B).Nonsingular x2 y2,
      (WeierstrassCurve.Affine.Point.some h : (Wcurve P A B).Point) =
        WeierstrassCurve.Affine.Point.some h2 := by
  subst hx
  subst hy
  exact ⟨h, rfl⟩

namespace Wcurve

open WeierstrassCurve WeierstrassCurve.Affine

variable {P : ℕ} {A B : ℤ}

lemma slope_eq_of_Y_ne [Fact P.Prime] {x1 x2 y1 y2 : ZMod P} (hx : x1 = x2) (hy : y1 ≠ -y2) :
    (Wcurve P A B).slope x1 x2 y1 y2 = (3 * x1 ^ 2 + (A : ZMod P)) / (y1 + y1) := by
  rw [Affine.slope_of_Y_ne hx (by rw [negY_eq]; exact hy), negY_eq]
  simp only [Wcurve]
  congr 1
  · ring
  · ring

lemma slope_eq_of_X_ne [Fact P.Prime] {x1 x2 y1 y2 : ZMod P} (hx : x1 ≠ x2) :
    (Wcurve P A B).slope x1 x2 y1 y2 = (y2 - y1) / (x2 - x1) := by
  rw [Affine.slope_of_X_ne hx, ← neg_sub y2 y1, ← neg_sub x2 x1, neg_div_neg_eq]

end Wcurve

/-- When the code's slope value `m` casts to the Mathlib slope, the
code's chord-and-tangent coordinate formulas compute the Mathlib sum. -/
lemma models_add_finite {P : ℕ} [Fact P.Prime] {A B : ℤ} (hP63 : (P : ℤ) < 2 ^ 63)
    {x1 y1 x2 y2 m : ℤ}
    (hx10 : 0 ≤ x1) (hx1P : x1 < (P : ℤ)) (hy10 : 0 ≤ y1) (hy1P : y1 < (P : ℤ))
    (hx20 : 0 ≤ x2) (hx2P : x2 < (P : ℤ)) (hy20 : 0 ≤ y2) (hy2P : y2 < (P : ℤ))
    (hm0 : 0 ≤ m) (hmP : m < (P : ℤ))
    (hns1 : (Wcurve P A B).Nonsingular ((x1 : ℤ) : ZMod P) ((y1 : ℤ) : ZMod P))
    (hns2 : (Wcurve P A B).Nonsingular ((x2 : ℤ) : ZMod P) ((y2 : ℤ) : ZMod P))
    (hxy : ((x1 : ℤ) : ZMod P) = ((x2 : ℤ) : ZMod P) →
      ((y1 : ℤ) : ZMod P) ≠ (Wcurve P A B).negY ((x2 : ℤ) : ZMod P) ((y2 : ℤ) : ZMod P))
    (hm : ((m : ℤ) : ZMod P) =
      (Wcurve P A B).slope ((x1 : ℤ) : ZMod P) ((x2 : ℤ) : ZMod P)
        ((y1 : ℤ) : ZMod P) ((y2 : ℤ) : ZMod P)) :
    Models P A B
      { X := Finite.Add (P : ℤ)
          (Finite.Add (P : ℤ) (Finite.Multiply (P : ℤ) m m) (-x1)) (-x2),
        Y := Finite.Add (P : ℤ)
          (Finite.Multiply (P : ℤ)
            (Finite.Add (P : ℤ) x1
              (-(Finite.Add (P : ℤ)
                (Finite.Add (P : ℤ) (Finite.Multiply (P : ℤ) m m) (-x1)) (-x2)))) m)
          (-y1),
        Inf := false }
      (WeierstrassCurve.Affine.Point.some hns1 + WeierstrassCurve.Affine.Point.some hns2) := by
  have hP2 : (2 : ℤ) ≤ (P : ℤ) := by exact_mod_cast (Fact.out : P.Prime).two_le
  have hP0 : (0 : ℤ) < (P : ℤ) := by omega
  have hm1 : -(P : ℤ) ≤ m := by omega
  have hm2 : m < 2 ^ 63 := by omega
  have ht1r := Finite.Multiply_range hP0 hP63 hm1 hm2 hm1 hm2
  have ht1c := zmod_Multiply hP63 hP0 hm1 hm2 hm1 hm2
  set t1 := Finite.Multiply (P : ℤ) m m with ht1
  have ht1a : -(P : ℤ) ≤ t1 := by omega
  have ht1b : t1 < 2 ^ 63 := by omega
  have hnx1a : -(P : ℤ) ≤ -x1 := by omega
  have hnx1b : -x1 < 2 ^ 63 := by omega
  have ht2r := Finite.Add_range hP0 hP63 ht1a ht1b hnx1a hnx1b
  have ht2c := zmod_Add hP63 hP0 ht1a ht1b hnx1a hnx1b
  set t2 := Finite.Add (P : ℤ) t1 (-x1) with ht2
  have ht2a : -(P : ℤ) ≤ t2 := by omega
  have ht2b : t2 < 2 ^ 63 := by omega
  have hnx2a : -(P : ℤ) ≤ -x2 := by omega
  have hnx2b : -x2 < 2 ^ 63 := by omega
  have hrXr := Finite.Add_range hP0 hP63 ht2a ht2b hnx2a hnx2b
  have hrXc := zmod_Add hP63 hP0 ht2a ht2b hnx2a hnx2b
  set rX := Finite.Add (P : ℤ) t2 (-x2) with hrX
  have hrXa : -(P : ℤ) ≤ rX := by omega
  have hrXb : rX < 2 ^ 63 := by omega
  have hnrXa : -(P : ℤ) ≤ -rX := by omega
  have hnrXb : -rX < 2 ^ 63 := by omega
  have hx1a : -(P : ℤ) ≤ x1 := by omega
  have hx1b : x1 < 2 ^ 63 := by omega
  have ht3r := Finite.Add_range hP0 hP63 hx1a hx1b hnrXa hnrXb
  have ht3c := zmod_Add hP63 hP0 hx1a hx1b hnrXa hnrXb
  set t3 := Finite.Add (P : ℤ) x1 (-rX) with ht3
  have ht3a : -(P : ℤ) ≤ t3 := by omega
  have ht3b : t3 < 2 ^ 63 := by omega
  have ht4r := Finite.Multiply_range hP0 hP63 ht3a ht3b hm1 hm2
  have ht4c := zmod_Multiply hP63 hP0 ht3a ht3b hm1 hm2
  set t4 := Finite.Multiply (P : ℤ) t3 m with ht4
  have ht4a : -(P : ℤ) ≤ t4 := by omega
  have ht4b : t4 < 2 ^ 63 := by omega
  have hny1a : -(P : ℤ) ≤ -y1 := by omega
  have hny1b : -y1 < 2 ^ 63 := by omega
  have hrYr := Finite.Add_range hP0 hP63 ht4a ht4b hny1a hny1b
  have hrYc := zmod_Add hP63 hP0 ht4a ht4b hny1a hny1b
  set rY := Finite.Add (P : ℤ) t4 (-y1) with hrY
  have hXc : ((rX : ℤ) : ZMod P) =
      ((m : ℤ) : ZMod P) ^ 2 - ((x1 : ℤ) : ZMod P) - ((x2 : ℤ) : ZMod P) := by
    rw [hrXc, ht2c, ht1c]
    push_cast
    ring
  have hYc : ((rY : ℤ) : ZMod P) =
      ((m : ℤ) : ZMod P) * (((x1 : ℤ) : ZMod P) - ((rX : ℤ) : ZMod P)) -
        ((y1 : ℤ) : ZMod P) := by
    rw [hrYc, ht4c, ht3c]
    push_cast
    ring
  have hXeq : (Wcurve P A B).addX ((x1 : ℤ) : ZMod P) ((x2 : ℤ) : ZMod P)
      ((Wcurve P A B).slope ((x1 : ℤ) : ZMod P) ((x2 : ℤ) : ZMod P)
        ((y1 : ℤ) : ZMod P) ((y2 : ℤ) : ZMod P)) = ((rX : ℤ) : ZMod P) := by
    rw [Wcurve.addX_eq, ← hm, hXc]
  have hYeq : (Wcurve P A B).addY ((x1 : ℤ) : ZMod P) ((x2 : ℤ) : ZMod P)
      ((y1 : ℤ) : ZMod P)
      ((Wcurve P A B).slope ((x1 : ℤ) : ZMod P) ((x2 : ℤ) : ZMod P)
        ((y1 : ℤ) : ZMod P) ((y2 : ℤ) : ZMod P)) = ((rY : ℤ) : ZMod P) := by
    rw [Wcurve.addY_eq, hXeq, ← hm, hYc]
  rw [WeierstrassCurve.Affine.Point.add_of_imp hxy]
  refine Or.inr ⟨rfl, hrXr.1, hrXr.2, hrYr.1, hrYr.2, ?_⟩
  obtain ⟨h2, he⟩ := wpoint_some_congr hXeq hYeq
    (WeierstrassCurve.Affine.nonsingular_add hns1 hns2 hxy)
  exact ⟨h2, he⟩

/-- `ec.Curve.Add` implements the Mathlib group law on a prime-field
short Weierstrass curve, on points in the modelling relation. -/
lemma models_add {P : ℕ} [Fact P.Prime] {c : ec.Curve}
    (hF : c.F = (P : ℤ)) (hP63 : (P : ℤ) < 2 ^ 63)
    (hA1 : -(P : ℤ) ≤ c.A) (hA63 : c.A < 2 ^ 63)
    {p1 p2 : ec.Point} {Q1 Q2 : (Wcurve P c.A c.B).Point}
    (h1 : Models P c.A c.B p1 Q1) (h2 : Models P c.A c.B p2 Q2) :
    Models P c.A c.B (c.Add p1 p2) (Q1 + Q2) := by
  have hP2 : (2 : ℤ) ≤ (P : ℤ) := by exact_mod_cast (Fact.out : P.Prime).two_le
  have hP0 : (0 : ℤ) < (P : ℤ) := by omega
  have hPprime : Prime ((P : ℕ) : ℤ) := Nat.prime_iff_prime_int.mp (Fact.out)
  rcases h1 with ⟨hp1, hQ1⟩ | ⟨hInf1, hX10, hX1P, hY10, hY1P, hns1, hQ1⟩
  · subst hQ1
    subst hp1
    rw [zero_add]
    have hAdd : c.Add ⟨0, 0, true⟩ p2 = p2 := by simp [ec.Curve.Add]
    rw [hAdd]
    exact h2
  rcases h2 with ⟨hp2, hQ2⟩ | ⟨hInf2, hX20, hX2P, hY20, hY2P, hns2, hQ2⟩
  · subst hQ2
    subst hp2
    rw [add_zero]
    have hAdd : c.Add p1 ⟨0, 0, true⟩ = p1 := by simp [ec.Curve.Add, hInf1]
    rw [hAdd]
    exact Or.inr ⟨hInf1, hX10, hX1P, hY10, hY1P, hns1, hQ1⟩
  subst hQ1
  subst hQ2
  have hX1a : -(P : ℤ) ≤ p1.X := by omega
  have hX1b : p1.X < 2 ^ 63 := by omega
  have hY1a : -(P : ℤ) ≤ p1.Y := by omega
  have hY1b : p1.Y < 2 ^ 63 := by omega
  have hX2a : -(P : ℤ) ≤ p2.X := by omega
  have hX2b : p2.X < 2 ^ 63 := by omega
  have hY2a : -(P : ℤ) ≤ p2.Y := by omega
  have hY2b : p2.Y < 2 ^ 63 := by omega
  by_cases hEq : p1.Equal p2 = true
  · -- tangent branch
    obtain ⟨hxx, hyy, -⟩ := (ec.Point.Equal_spec p1 p2).mp hEq
    have hxc : ((p1.X : ℤ) : ZMod P) = ((p2.X : ℤ) : ZMod P) := by rw [hxx]
    have hyc : ((p1.Y : ℤ) : ZMod P) = ((p2.Y : ℤ) : ZMod P) := by rw [hyy]
    have h2a : -(P : ℤ) ≤ 2 := by omega
    have h2b : (2 : ℤ) < 2 ^ 63 := by norm_num
    have hdr := Finite.Multiply_range hP0 hP63 h2a h2b hY1a hY1b
    have hdc := zmod_Multiply hP63 hP0 h2a h2b hY1a hY1b
    simp only [ec.Curve.Add, hInf1, hInf2, hF, hEq, Bool.false_eq_true, if_false, if_true]
    by_cases hd0 : Finite.Multiply ((P : ℕ) : ℤ) 2 p1.Y = 0
    · simp only [hd0, Finite.Inverse_zero hP2]
      have h2y0 : (2 : ZMod P) * ((p1.Y : ℤ) : ZMod P) = 0 := by
        have := hdc
        rw [hd0] at this
        push_cast at this
        linear_combination -this
      have hyy1 : ((p1.Y : ℤ) : ZMod P) = -((p1.Y : ℤ) : ZMod P) := by
        linear_combination h2y0
      have hynegY : ((p1.Y : ℤ) : ZMod P) =
          (Wcurve P c.A c.B).negY ((p2.X : ℤ) : ZMod P) ((p2.Y : ℤ) : ZMod P) := by
        rw [Wcurve.negY_eq, ← hyc]
        exact hyy1
      rw [WeierstrassCurve.Affine.Point.add_of_Y_eq hxc hynegY]
      exact models_zero
    · have hdpos : 0 < Finite.Multiply ((P : ℕ) : ℤ) 2 p1.Y := by omega
      obtain ⟨v, hv, hv0, hvP, hmulv⟩ :=
        (Finite.Inverse_spec ((P : ℕ) : ℤ) _ hPprime hP2 hP63 hdr.1 hdr.2).2 hdpos
      simp only [hv]
      have hva : -(P : ℤ) ≤ v := by omega
      have hvb : v < 2 ^ 63 := by omega
      have hda : -(P : ℤ) ≤ Finite.Multiply ((P : ℕ) : ℤ) 2 p1.Y := by omega
      have hdb : Finite.Multiply ((P : ℕ) : ℤ) 2 p1.Y < 2 ^ 63 := by omega
      have hdv : ((Finite.Multiply ((P : ℕ) : ℤ) 2 p1.Y : ℤ) : ZMod P) * ((v : ℤ) : ZMod P)
          = 1 := by
        rw [← zmod_Multiply hP63 hP0 hda hdb hva hvb, hmulv]
        norm_num
      have hdc2 : ((Finite.Multiply ((P : ℕ) : ℤ) 2 p1.Y : ℤ) : ZMod P) =
          2 * ((p1.Y : ℤ) : ZMod P) := by
        rw [hdc]
        push_cast
        ring
      have hvc : ((v : ℤ) : ZMod P) = (2 * ((p1.Y : ℤ) : ZMod P))⁻¹ :=
        eq_inv_of_mul_eq_one_right (by rw [← hdc2]; exact hdv)
      have hdne : ((Finite.Multiply ((P : ℕ) : ℤ) 2 p1.Y : ℤ) : ZMod P) ≠ 0 :=
        intCast_ne_zero_of_range hdpos hdr.2
      have hyne1 : ((p1.Y : ℤ) : ZMod P) ≠ -((p2.Y : ℤ) : ZMod P) := by
        intro h
        apply hdne
        rw [hdc2]
        rw [← hyc] at h
        linear_combination h
      have hxy : ((p1.X : ℤ) : ZMod P) = ((p2.X : ℤ) : ZMod P) →
          ((p1.Y : ℤ) : ZMod P) ≠
            (Wcurve P c.A c.B).negY ((p2.X : ℤ) : ZMod P) ((p2.Y : ℤ) : ZMod P) := by
        intro _
        rw [Wcurve.negY_eq]
        exact hyne1
      have h3a : -(P : ℤ) ≤ 3 := by omega
      have h3b : (3 : ℤ) < 2 ^ 63 := by norm_num
      have ht5r := Finite.Multiply_range hP0 hP63 hX1a hX1b hX1a hX1b
      have ht5c := zmod_Multiply hP63 hP0 hX1a hX1b hX1a hX1b
      have ht5a : -(P : ℤ) ≤ Finite.Multiply ((P : ℕ) : ℤ) p1.X p1.X := by omega
      have ht5b : Finite.Multiply ((P : ℕ) : ℤ) p1.X p1.X < 2 ^ 63 := by omega
      have ht6r := Finite.Multiply_range hP0 hP63 h3a h3b ht5a ht5b
      have ht6c := zmod_Multiply hP63 hP0 h3a h3b ht5a ht5b
      have ht6a : -(P : ℤ) ≤ Finite.Multiply ((P : ℕ) : ℤ) 3
          (Finite.Multiply ((P : ℕ) : ℤ) p1.X p1.X) := by omega
      have ht6b : Finite.Multiply ((P : ℕ) : ℤ) 3
          (Finite.Multiply ((P : ℕ) : ℤ) p1.X p1.X) < 2 ^ 63 := by omega
      have ht7r := Finite.Add_range hP0 hP63 ht6a ht6b hA1 hA63
      have ht7c := zmod_Add hP63 hP0 ht6a ht6b hA1 hA63
      have ht7a : -(P : ℤ) ≤ Finite.Add ((P : ℕ) : ℤ)
          (Finite.Multiply ((P : ℕ) : ℤ) 3 (Finite.Multiply ((P : ℕ) : ℤ) p1.X p1.X))
          c.A := by omega
      have ht7b : Finite.Add ((P : ℕ) : ℤ)
          (Finite.Multiply ((P : ℕ) : ℤ) 3 (Finite.Multiply ((P : ℕ) : ℤ) p1.X p1.X))
          c.A < 2 ^ 63 := by omega
      have hmr := Finite.Multiply_range hP0 hP63 ht7a ht7b hva hvb
      have hmc := zmod_Multiply hP63 hP0 ht7a ht7b hva hvb
      have hm : ((Finite.Multiply ((P : ℕ) : ℤ)
          (Finite.Add ((P : ℕ) : ℤ)
            (Finite.Multiply ((P : ℕ) : ℤ) 3 (Finite.Multiply ((P : ℕ) : ℤ) p1.X p1.X))
            c.A) v : ℤ) : ZMod P) =
          (Wcurve P c.A c.B).slope ((p1.X : ℤ) : ZMod P) ((p2.X : ℤ) : ZMod P)
            ((p1.Y : ℤ) : ZMod P) ((p2.Y : ℤ) : ZMod P) := by
        rw [Wcurve.slope_eq_of_Y_ne hxc hyne1, ← two_mul, div_eq_mul_inv, ← hvc,
          hmc, ht7c, ht6c, ht5c]
        push_cast
        ring
      exact models_add_finite hP63 hX10 hX1P hY10 hY1P hX20 hX2P hY20 hY2P
        hmr.1 hmr.2 hns1 hns2 hxy hm
  · -- chord branch
    have hEqf : p1.Equal p2 = false := by
      cases h : p1.Equal p2
      · rfl
      · exact absurd h hEq
    have hne : ¬(p1.X = p2.X ∧ p1.Y = p2.Y) := by
      rintro ⟨hx, hy⟩
      exact hEq ((ec.Point.Equal_spec p1 p2).mpr ⟨hx, hy, by rw [hInf1, hInf2]⟩)
    have hnX1a : -(P : ℤ) ≤ -p1.X := by omega
    have hnX1b : -p1.X < 2 ^ 63 := by omega
    have hdr := Finite.Add_range hP0 hP63 hX2a hX2b hnX1a hnX1b
    have hdc := zmod_Add hP63 hP0 hX2a hX2b hnX1a hnX1b
    simp only [ec.Curve.Add, hInf1, hInf2, hF, hEqf, Bool.false_eq_true, if_false]
    by_cases hd0 : Finite.Add ((P : ℕ) : ℤ) p2.X (-p1.X) = 0
    · simp only [hd0, Finite.Inverse_zero hP2]
      have hceq : ((p2.X : ℤ) : ZMod P) = ((p1.X : ℤ) : ZMod P) := by
        have := hdc
        rw [hd0] at this
        push_cast at this
        linear_combination -this
      have hxeq : p2.X = p1.X := intCast_inj_of_range hX20 hX2P hX10 hX1P hceq
      have hyne : p1.Y ≠ p2.Y := fun h => hne ⟨hxeq.symm, h⟩
      have hycne : ((p1.Y : ℤ) : ZMod P) ≠ ((p2.Y : ℤ) : ZMod P) :=
        fun h => hyne (intCast_inj_of_range hY10 hY1P hY20 hY2P h)
      have he1 := (Wcurve.equation_iff ((p1.X : ℤ) : ZMod P) ((p1.Y : ℤ) : ZMod P)).mp hns1.1
      have he2 := (Wcurve.equation_iff ((p2.X : ℤ) : ZMod P) ((p2.Y : ℤ) : ZMod P)).mp hns2.1
      rw [hceq] at he2
      have hsq : ((p1.Y : ℤ) : ZMod P) ^ 2 = ((p2.Y : ℤ) : ZMod P) ^ 2 := he1.trans he2.symm
      have hfact : (((p1.Y : ℤ) : ZMod P) - ((p2.Y : ℤ) : ZMod P)) *
          (((p1.Y : ℤ) : ZMod P) + ((p2.Y : ℤ) : ZMod P)) = 0 := by
        linear_combination hsq
      rcases mul_eq_zero.mp hfact with h | h
      · exact absurd (sub_eq_zero.mp h) hycne
      · have hynegY : ((p1.Y : ℤ) : ZMod P) =
            (Wcurve P c.A c.B).negY ((p2.X : ℤ) : ZMod P) ((p2.Y : ℤ) : ZMod P) := by
          rw [Wcurve.negY_eq]
          linear_combination h
        rw [WeierstrassCurve.Affine.Point.add_of_Y_eq hceq.symm hynegY]
        exact models_zero
    · have hdpos : 0 < Finite.Add ((P : ℕ) : ℤ) p2.X (-p1.X) := by omega
      obtain ⟨v, hv, hv0, hvP, hmulv⟩ :=
        (Finite.Inverse_spec ((P : ℕ) : ℤ) _ hPprime hP2 hP63 hdr.1 hdr.2).2 hdpos
      simp only [hv]
      have hva : -(P : ℤ) ≤ v := by omega
      have hvb : v < 2 ^ 63 := by omega
      have hda : -(P : ℤ) ≤ Finite.Add ((P : ℕ) : ℤ) p2.X (-p1.X) := by omega
      have hdb : Finite.Add ((P : ℕ) : ℤ) p2.X (-p1.X) < 2 ^ 63 := by omega
      have hdv : ((Finite.Add ((P : ℕ) : ℤ) p2.X (-p1.X) : ℤ) : ZMod P) *
          ((v : ℤ) : ZMod P) = 1 := by
        rw [← zmod_Multiply hP63 hP0 hda hdb hva hvb, hmulv]
        norm_num
      have hdc2 : ((Finite.Add ((P : ℕ) : ℤ) p2.X (-p1.X) : ℤ) : ZMod P) =
          ((p2.X : ℤ) : ZMod P) - ((p1.X : ℤ) : ZMod P) := by
        rw [hdc]
        push_cast
        ring
      have hvc : ((v : ℤ) : ZMod P) =
          (((p2.X : ℤ) : ZMod P) - ((p1.X : ℤ) : ZMod P))⁻¹ :=
        eq_inv_of_mul_eq_one_right (by rw [← hdc2]; exact hdv)
      have hdne : ((Finite.Add ((P : ℕ) : ℤ) p2.X (-p1.X) : ℤ) : ZMod P) ≠ 0 :=
        intCast_ne_zero_of_range hdpos hdr.2
      have hxcne : ((p1.X : ℤ) : ZMod P) ≠ ((p2.X : ℤ) : ZMod P) := by
        intro h
        apply hdne
        rw [hdc2, h, sub_self]
      have hxy : ((p1.X : ℤ) : ZMod P) = ((p2.X : ℤ) : ZMod P) →
          ((p1.Y : ℤ) : ZMod P) ≠
            (Wcurve P c.A c.B).negY ((p2.X : ℤ) : ZMod P) ((p2.Y : ℤ) : ZMod P) :=
        fun h => absurd h hxcne
      have hnY1a : -(P : ℤ) ≤ -p1.Y := by omega
      have hnY1b : -p1.Y < 2 ^ 63 := by omega
      have hnr := Finite.Add_range hP0 hP63 hY2a hY2b hnY1a hnY1b
      have hnc := zmod_Add hP63 hP0 hY2a hY2b hnY1a hnY1b
      have hna : -(P : ℤ) ≤ Finite.Add ((P : ℕ) : ℤ) p2.Y (-p1.Y) := by omega
      have hnb : Finite.Add ((P : ℕ) : ℤ) p2.Y (-p1.Y) < 2 ^ 63 := by omega
      have hmr := Finite.Multiply_range hP0 hP63 hna hnb hva hvb
      have hmc := zmod_Multiply hP63 hP0 hna hnb hva hvb
      have hm : ((Finite.Multiply ((P : ℕ) : ℤ)
          (Finite.Add ((P : ℕ) : ℤ) p2.Y (-p1.Y)) v : ℤ) : ZMod P) =
          (Wcurve P c.A c.B).slope ((p1.X : ℤ) : ZMod P) ((p2.X : ℤ) : ZMod P)
            ((p1.Y : ℤ) : ZMod P) ((p2.Y : ℤ) : ZMod P) := by
        rw [Wcurve.slope_eq_of_X_ne hxcne, div_eq_mul_inv, ← hvc, hmc, hnc]
        push_cast
        ring
      exact models_add_finite hP63 hX10 hX1P hY10 hY1P hX20 hX2P hY20 hY2P
        hmr.1 hmr.2 hns1 hns2 hxy hm

/-- Double-and-add invariant: after `fuel` iterations starting at bit
`b`, the accumulator picks up the multiple of `Qp` given by the bits of
`k` in the window `[b, b + fuel)`. -/
lemma models_scalarLoop {P : ℕ} [Fact P.Prime] {c : ec.Curve}
    (hF : c.F = (P : ℤ)) (hP63 : (P : ℤ) < 2 ^ 63)
    (hA1 : -(P : ℤ) ≤ c.A) (hA63 : c.A < 2 ^ 63)
    {k : ℤ} (hk0 : 0 ≤ k) (hk63 : k < 2 ^ 63) :
    ∀ (fuel b : ℕ) (r p : ec.Point) (Qr Qp : (Wcurve P c.A c.B).Point),
      Models P c.A c.B r Qr → Models P c.A c.B p Qp →
      Models P c.A c.B (c.scalarLoop k fuel b r p)
        (Qr + (k.toNat / 2 ^ b % 2 ^ fuel) • Qp) := by
  intro fuel
  induction fuel with
  | zero =>
    intro b r p Qr Qp hr hp
    simpa [ec.Curve.scalarLoop, Nat.mod_one, zero_nsmul] using hr
  | succ m ih =>
    intro b r p Qr Qp hr hp
    have hstep : c.scalarLoop k (m + 1) b r p =
        c.scalarLoop k m (b + 1) (if goBit k b then c.Add r p else r) (c.Add p p) := rfl
    have hdd : k.toNat / 2 ^ b / 2 = k.toNat / 2 ^ (b + 1) := by
      rw [Nat.div_div_eq_div_mul, ← pow_succ]
    have hsplit : k.toNat / 2 ^ b % 2 ^ (m + 1) =
        k.toNat / 2 ^ b % 2 + 2 * (k.toNat / 2 ^ (b + 1) % 2 ^ m) := by
      rw [pow_succ (a := (2 : ℕ)) (n := m), mul_comm ((2 : ℕ) ^ m) 2, Nat.mod_mul, hdd]
    have hbit : goBit k b = decide (k.toNat / 2 ^ b % 2 = 1) := by
      rw [goBit_eq hk0 hk63, Nat.testBit_to_div_mod]
    have hpp : Models P c.A c.B (c.Add p p) (Qp + Qp) :=
      models_add hF hP63 hA1 hA63 hp hp
    rw [hstep, hsplit]
    rcases Nat.mod_two_eq_zero_or_one (k.toNat / 2 ^ b) with hb | hb
    · have hgo : goBit k b = false := by rw [hbit, hb]; simp
      have harith : Qr + (k.toNat / 2 ^ (b + 1) % 2 ^ m) • (Qp + Qp) =
          Qr + (k.toNat / 2 ^ b % 2 + 2 * (k.toNat / 2 ^ (b + 1) % 2 ^ m)) • Qp := by
        rw [hb, zero_add, mul_nsmul, two_nsmul]
      rw [hgo, if_neg (by simp), ← harith]
      exact ih (b + 1) r (c.Add p p) Qr (Qp + Qp) hr hpp
    · have hgo : goBit k b = true := by rw [hbit, hb]; simp
      have hrp : Models P c.A c.B (c.Add r p) (Qr + Qp) :=
        models_add hF hP63 hA1 hA63 hr hp
      have harith : Qr + Qp + (k.toNat / 2 ^ (b + 1) % 2 ^ m) • (Qp + Qp) =
          Qr + (k.toNat / 2 ^ b % 2 + 2 * (k.toNat / 2 ^ (b + 1) % 2 ^ m)) • Qp := by
        rw [hb, add_nsmul, one_nsmul, mul_nsmul, two_nsmul, ← add_assoc]
      rw [hgo, if_pos rfl, ← harith]
      exact ih (b + 1) (c.Add r p) (c.Add p p) (Qr + Qp) (Qp + Qp) hrp hpp

/-- `ec.Curve.ScalarM` computes the `k`-th multiple in the Mathlib group. -/
lemma models_ScalarM {P : ℕ} [Fact P.Prime] {c : ec.Curve}
    (hF : c.F = (P : ℤ)) (hP63 : (P : ℤ) < 2 ^ 63)
    (hA1 : -(P : ℤ) ≤ c.A) (hA63 : c.A < 2 ^ 63)
    {k : ℤ} (hk0 : 0 ≤ k) (hk63 : k < 2 ^ 63)
    {p : ec.Point} {Qp : (Wcurve P c.A c.B).Point}
    (hp : Models P c.A c.B p Qp) :
    Models P c.A c.B (c.ScalarM k p) (k.toNat • Qp) := by
  have h := models_scalarLoop hF hP63 hA1 hA63 hk0 hk63 64 0 ⟨0, 0, true⟩ p 0 Qp
    models_zero hp
  have hexp : k.toNat / 2 ^ 0 % 2 ^ 64 = k.toNat := by
    have : k.toNat < 2 ^ 64 := by omega
    omega
  rw [hexp, zero_add] at h
  exact h

/-- A point modelling `0` is the literal identity record. -/
lemma models_pt_of_eq_zero {P : ℕ} {A B : ℤ} {pt : ec.Point}
    {Q : (Wcurve P A B).Point} (h : Models P A B pt Q) (hq : Q = 0) :
    pt = ⟨0, 0, true⟩ := by
  rcases h with ⟨he, -⟩ | ⟨-, -, -, -, -, hns, hQ⟩
  · exact he
  · rw [hq] at hQ
    exact absurd hQ.symm (WeierstrassCurve.Affine.Point.some_ne_zero hns)

/-- A point with the infinity flag set models `0`. -/
lemma models_eq_zero_of_inf {P : ℕ} {A B : ℤ} {pt : ec.Point}
    {Q : (Wcurve P A B).Point} (h : Models P A B pt Q) (hi : pt.Inf = true) :
    Q = 0 := by
  rcases h with ⟨-, hq⟩ | ⟨hInf, -, -, -, -, -, -⟩
  · exact hq
  · rw [hInf] at hi
    exact absurd hi (by simp)

/-- A point modelling a nonzero group element is finite with canonical
coordinates and nonsingular image. -/
lemma models_finite_of_ne_zero {P : ℕ} {A B : ℤ} {pt : ec.Point}
    {Q : (Wcurve P A B).Point} (h : Models P A B pt Q) (hq : Q ≠ 0) :
    pt.Inf = false ∧ 0 ≤ pt.X ∧ pt.X < (P : ℤ) ∧ 0 ≤ pt.Y ∧ pt.Y < (P : ℤ) ∧
    ∃ hns : (Wcurve P A B).Nonsingular ((pt.X : ℤ) : ZMod P) ((pt.Y : ℤ) : ZMod P),
      Q = WeierstrassCurve.Affine.Point.some hns := by
  rcases h with ⟨-, hq0⟩ | hfin
  · exact absurd hq0 hq
  · exact hfin

/-- The modelling relation determines the code point. -/
lemma models_unique {P : ℕ} {A B : ℤ} {pt1 pt2 : ec.Point}
    {Q : (Wcurve P A B).Point}
    (h1 : Models P A B pt1 Q) (h2 : Models P A B pt2 Q) : pt1 = pt2 := by
  rcases h1 with ⟨he1, hq1⟩ | ⟨hInf1, hX10, hX1P, hY10, hY1P, hns1, hq1⟩
  · rw [he1, (models_pt_of_eq_zero h2 hq1).symm]
  · rcases h2 with ⟨he2, hq2⟩ | ⟨hInf2, hX20, hX2P, hY20, hY2P, hns2, hq2⟩
    · rw [hq2] at hq1
      exact absurd hq1.symm (WeierstrassCurve.Affine.Point.some_ne_zero hns1)
    · have heq := hq1.symm.trans hq2
      rw [WeierstrassCurve.Affine.Point.some.injEq] at heq
      have hx := heq.1
      have hy := heq.2
      have hX : pt1.X = pt2.X := intCast_inj_of_range hX10 hX1P hX20 hX2P hx
      have hY : pt1.Y = pt2.Y := intCast_inj_of_range hY10 hY1P hY20 hY2P hy
      have hI : pt1.Inf = pt2.Inf := by rw [hInf1, hInf2]
      have heta : pt1 = (⟨pt1.X, pt1.Y, pt1.Inf⟩ : ec.Point) := rfl
      rw [heta, hX, hY, hI]

/-- Iterated addition computes the `n`-th multiple in the Mathlib group. -/
lemma models_iterAdd {P : ℕ} [Fact P.Prime] {c : ec.Curve}
    (hF : c.F = (P : ℤ)) (hP63 : (P : ℤ) < 2 ^ 63)
    (hA1 : -(P : ℤ) ≤ c.A) (hA63 : c.A < 2 ^ 63)
    {p : ec.Point} {Qp : (Wcurve P c.A c.B).Point}
    (hp : Models P c.A c.B p Qp) :
    ∀ n : ℕ, Models P c.A c.B (iterAdd c p n) (n • Qp) := by
  intro n
  induction n with
  | zero => simpa [iterAdd, zero_nsmul] using models_zero
  | succ m ih =>
    have h := models_add hF hP63 hA1 hA63 ih hp
    rw [succ_nsmul]
    exact h

/-- For a finite point with canonical coordinates, `ec.Curve.Valid`
decides the Weierstrass equation over `ZMod P`. -/
lemma Valid_iff_equation {P : ℕ} [Fact P.Prime] {c : ec.Curve}
    (hF : c.F = (P : ℤ)) (hP63 : (P : ℤ) < 2 ^ 63)
    (hA1 : -(P : ℤ) ≤ c.A) (hA63 : c.A < 2 ^ 63)
    (hB1 : -(P : ℤ) ≤ c.B) (hB63 : c.B < 2 ^ 63)
    {pt : ec.Point} (hInf : pt.Inf = false)
    (hX0 : 0 ≤ pt.X) (hXP : pt.X < (P : ℤ)) (hY0 : 0 ≤ pt.Y) (hYP : pt.Y < (P : ℤ)) :
    c.Valid pt = true ↔
      (Wcurve P c.A c.B).Equation ((pt.X : ℤ) : ZMod P) ((pt.Y : ℤ) : ZMod P) := by
  have hP2 : (2 : ℤ) ≤ (P : ℤ) := by exact_mod_cast (Fact.out : P.Prime).two_le
  have hP0 : (0 : ℤ) < (P : ℤ) := by omega
  obtain ⟨hYr, hYc⟩ := Finite.Exponentiate_spec (n := P) hP2 hP63 hY0 hYP
    (show (0 : ℤ) ≤ 2 by norm_num) (show (2 : ℤ) < 2 ^ 63 by norm_num)
  obtain ⟨hXr, hXc⟩ := Finite.Exponentiate_spec (n := P) hP2 hP63 hX0 hXP
    (show (0 : ℤ) ≤ 3 by norm_num) (show (3 : ℤ) < 2 ^ 63 by norm_num)
  rw [show (2 : ℤ).toNat = 2 from rfl] at hYc
  rw [show (3 : ℤ).toNat = 3 from rfl] at hXc
  have hXPa : -(P : ℤ) ≤ pt.X := by omega
  have hXPb : pt.X < 2 ^ 63 := by omega
  have hMr := Finite.Multiply_range hP0 hP63 hA1 hA63 hXPa hXPb
  have hMc := zmod_Multiply hP63 hP0 hA1 hA63 hXPa hXPb
  have hXa : -(P : ℤ) ≤ Finite.Exponentiate (P : ℤ) pt.X 3 := by omega
  have hXb : Finite.Exponentiate (P : ℤ) pt.X 3 < 2 ^ 63 := by omega
  have hMa : -(P : ℤ) ≤ Finite.Multiply (P : ℤ) c.A pt.X := by omega
  have hMb : Finite.Multiply (P : ℤ) c.A pt.X < 2 ^ 63 := by omega
  have hSr := Finite.Add_range hP0 hP63 hXa hXb hMa hMb
  have hSc := zmod_Add hP63 hP0 hXa hXb hMa hMb
  have hSa : -(P : ℤ) ≤ Finite.Add (P : ℤ) (Finite.Exponentiate (P : ℤ) pt.X 3)
      (Finite.Multiply (P : ℤ) c.A pt.X) := by omega
  have hSb : Finite.Add (P : ℤ) (Finite.Exponentiate (P : ℤ) pt.X 3)
      (Finite.Multiply (P : ℤ) c.A pt.X) < 2 ^ 63 := by omega
  have hRr := Finite.Add_range hP0 hP63 hSa hSb hB1 hB63
  have hRc := zmod_Add hP63 hP0 hSa hSb hB1 hB63
  have hrhs : ((Finite.Add (P : ℤ)
      (Finite.Add (P : ℤ) (Finite.Exponentiate (P : ℤ) pt.X 3)
        (Finite.Multiply (P : ℤ) c.A pt.X)) c.B : ℤ) : ZMod P) =
      ((pt.X : ℤ) : ZMod P) ^ 3 + ((c.A : ℤ) : ZMod P) * ((pt.X : ℤ) : ZMod P) +
        ((c.B : ℤ) : ZMod P) := by
    rw [hRc, hSc, hXc, hMc]
  simp only [ec.Curve.Valid, hInf, Bool.false_eq_true, if_false, hF, beq_iff_eq]
  rw [Wcurve.equation_iff]
  constructor
  · intro h
    rw [← hYc, h, hrhs]
  · intro h
    refine intCast_inj_of_range hYr.1 hYr.2 hRr.1 hRr.2 ?_
    rw [hYc, hrhs]
    exact h

/-- A canonical valid finite point whose partial derivatives do not
both vanish models a nonzero Mathlib point. -/
lemma models_of_valid {P : ℕ} [Fact P.Prime] {c : ec.Curve}
    (hF : c.F = (P : ℤ)) (hP63 : (P : ℤ) < 2 ^ 63)
    (hA1 : -(P : ℤ) ≤ c.A) (hA63 : c.A < 2 ^ 63)
    (hB1 : -(P : ℤ) ≤ c.B) (hB63 : c.B < 2 ^ 63)
    {pt : ec.Point} (hInf : pt.Inf = false)
    (hX0 : 0 ≤ pt.X) (hXP : pt.X < (P : ℤ)) (hY0 : 0 ≤ pt.Y) (hYP : pt.Y < (P : ℤ))
    (hval : c.Valid pt = true)
    (hns : ¬((3 * pt.X ^ 2 + c.A) % (P : ℤ) = 0 ∧ (2 * pt.Y) % (P : ℤ) = 0)) :
    ∃ Q : (Wcurve P c.A c.B).Point, Models P c.A c.B pt Q ∧ Q ≠ 0 := by
  have heq := (Valid_iff_equation hF hP63 hA1 hA63 hB1 hB63 hInf hX0 hXP hY0 hYP).mp hval
  have hor : 3 * ((pt.X : ℤ) : ZMod P) ^ 2 + ((c.A : ℤ) : ZMod P) ≠ 0 ∨
      2 * ((pt.Y : ℤ) : ZMod P) ≠ 0 := by
    by_contra hcon
    push_neg at hcon
    apply hns
    have h1 : ((3 * pt.X ^ 2 + c.A : ℤ) : ZMod P) = 0 := by
      push_cast
      exact hcon.1
    have h2 : ((2 * pt.Y : ℤ) : ZMod P) = 0 := by
      push_cast
      exact hcon.2
    exact ⟨Int.emod_eq_zero_of_dvd ((ZMod.intCast_zmod_eq_zero_iff_dvd _ _).mp h1),
      Int.emod_eq_zero_of_dvd ((ZMod.intCast_zmod_eq_zero_iff_dvd _ _).mp h2)⟩
  have hnsing : (Wcurve P c.A c.B).Nonsingular ((pt.X : ℤ) : ZMod P)
      ((pt.Y : ℤ) : ZMod P) :=
    (Wcurve.nonsingular_iff _ _).mpr ⟨heq, hor⟩
  refine ⟨WeierstrassCurve.Affine.Point.some hnsing,
    Or.inr ⟨hInf, hX0, hXP, hY0, hYP, hnsing, rfl⟩,
    WeierstrassCurve.Affine.Point.some_ne_zero hnsing⟩

/-- Multiples of an element killed by `N` only depend on the exponent
mod `N`. -/
lemma nsmul_mod_eq {M : Type*} [AddCommMonoid M] {g : M} {N : ℕ}
    (h : N • g = 0) (a : ℕ) : a • g = (a % N) • g := by
  conv_lhs => rw [← Nat.div_add_mod a N, add_nsmul, mul_nsmul, h]
  simp

/-- A nonzero element killed by a prime `N` is not killed by any
positive exponent below `N`. -/
lemma nsmul_ne_zero_of_lt {M : Type*} [AddMonoid M] {g : M} {N : ℕ}
    (hNp : N.Prime) (hN : N • g = 0) (hg : g ≠ 0) {a : ℕ}
    (ha0 : a ≠ 0) (haN : a < N) : a • g ≠ 0 := by
  haveI : Fact N.Prime := ⟨hNp⟩
  have hord : addOrderOf g = N := addOrderOf_eq_prime hN hg
  intro h
  have hdvd : addOrderOf g ∣ a := addOrderOf_dvd_of_nsmul_eq_zero h
  rw [hord] at hdvd
  have := Nat.le_of_dvd (Nat.pos_of_ne_zero ha0) hdvd
  omega

namespace ecdsa

/-- The big-endian byte fold stays below `(acc + 1) · 256^len`. -/
lemma foldl_byte_bound : ∀ (l : List Nat), (∀ v ∈ l, v < 256) → ∀ acc : Int, 0 ≤ acc →
    l.foldl (fun (acc : Int) (v : Nat) => acc * 256 + (v : Int)) acc <
      (acc + 1) * 256 ^ l.length := by
  intro l
  induction l with
  | nil =>
    intro _ acc hacc
    simp only [List.foldl_nil, List.length_nil, pow_zero, mul_one]
    omega
  | cons x xs ih =>
    intro hb acc hacc
    simp only [List.foldl_cons, List.length_cons]
    have hx : (x : ℤ) < 256 := by exact_mod_cast hb x (List.mem_cons_self x xs)
    have hstep := ih (fun v hv => hb v (List.mem_cons_of_mem x hv)) (acc * 256 + (x : ℤ))
      (by positivity)
    have hmono : (acc * 256 + (x : ℤ) + 1) * 256 ^ xs.length ≤
        (acc + 1) * 256 ^ (xs.length + 1) := by
      have h1 : acc * 256 + (x : ℤ) + 1 ≤ (acc + 1) * 256 := by
        have : acc * 256 + (x : ℤ) + 1 ≤ acc * 256 + 256 := by omega
        calc acc * 256 + (x : ℤ) + 1 ≤ acc * 256 + 256 := this
        _ = (acc + 1) * 256 := by ring
      calc (acc * 256 + (x : ℤ) + 1) * 256 ^ xs.length
          ≤ ((acc + 1) * 256) * 256 ^ xs.length :=
            mul_le_mul_of_nonneg_right h1 (by positivity)
      _ = (acc + 1) * 256 ^ (xs.length + 1) := by rw [pow_succ]; ring
    exact lt_of_lt_of_le hstep hmono

/-- The big-endian byte fold is nonnegative from a nonnegative seed. -/
lemma foldl_byte_nonneg : ∀ (l : List Nat) (acc : Int), 0 ≤ acc →
    0 ≤ l.foldl (fun (acc : Int) (v : Nat) => acc * 256 + (v : Int)) acc := by
  intro l
  induction l with
  | nil => intro acc hacc; exact hacc
  | cons x xs ih => intro acc hacc; exact ih _ (by positivity)

/-- With at most 31 requested bits and genuine bytes, the truncated
digest is below `2^32`. -/
lemma truncate_lt {b : List Nat} {bs : Int} (hbs0 : 0 ≤ bs) (hbs31 : bs ≤ 31)
    (hb : ∀ v ∈ b, v < 256) : truncate b bs < 2 ^ 32 := by
  simp only [truncate]
  have hnb : ((bs + 7).tdiv 8).toNat ≤ 4 := by
    have h1 : (bs + 7).tdiv 8 = (bs + 7) / 8 := Int.tdiv_eq_ediv (by omega) (by omega)
    omega
  have hlen : (b.take ((bs + 7).tdiv 8).toNat).length ≤ 4 :=
    le_trans (List.length_take_le _ _) hnb
  have hmem : ∀ v ∈ b.take ((bs + 7).tdiv 8).toNat, v < 256 :=
    fun v hv => hb v (List.mem_of_mem_take hv)
  have hz := foldl_byte_bound _ hmem 0 le_rfl
  have hz0 := foldl_byte_nonneg (b.take ((bs + 7).tdiv 8).toNat) 0 le_rfl
  have hpow : (256 : ℤ) ^ (b.take ((bs + 7).tdiv 8).toNat).length ≤ 256 ^ 4 :=
    pow_le_pow_right₀ (by norm_num) hlen
  norm_num at hz
  split
  · refine lt_of_le_of_lt (Int.ediv_le_self _ hz0) ?_
    norm_num at hpow
    omega
  · norm_num at hpow
    omega

end ecdsa

/-- **C6 (counterexample).**  The claim quantifies over every curve and
point.  Over the composite field order `9` the point `(1, 1)` is on the
curve, yet `ScalarM 4` (double-and-add, which computes `2·P + 2·P`
through a false inverse mod 9) differs from four iterated `Add`s. -/
theorem C6_counterexample :
    ec.Curve.Valid curveNine ⟨1, 1, false⟩ = true ∧
    ec.Curve.ScalarM curveNine 4 ⟨1, 1, false⟩ = ⟨4, 1, false⟩ ∧
    iterAdd curveNine ⟨1, 1, false⟩ 4 = ⟨1, 1, false⟩ := by
  exact ⟨by decide, by decide, by decide⟩

/-- **C6 (amended).**  Over a prime field order `P < 2^63`, for every
canonical valid finite point whose partial derivatives do not both
vanish and every `0 ≤ k < 2^63`, double-and-add `ScalarM` agrees with
`k`-fold iterated `Curve.Add` from the identity; for `k = 0` both sides
are the identity point by definition. -/
theorem C6_scalar_mult_iterated (c : ec.Curve) (P : ℕ) (k : Int) (pt : ec.Point)
    (hPp : Nat.Prime P)
    (hF : c.F = (P : ℤ)) (hP63 : (P : ℤ) < 2 ^ 63)
    (hA1 : -(P : ℤ) ≤ c.A) (hA63 : c.A < 2 ^ 63)
    (hB1 : -(P : ℤ) ≤ c.B) (hB63 : c.B < 2 ^ 63)
    (hInf : pt.Inf = false)
    (hX0 : 0 ≤ pt.X) (hXP : pt.X < (P : ℤ)) (hY0 : 0 ≤ pt.Y) (hYP : pt.Y < (P : ℤ))
    (hval : c.Valid pt = true)
    (hns : ¬((3 * pt.X ^ 2 + c.A) % (P : ℤ) = 0 ∧ (2 * pt.Y) % (P : ℤ) = 0))
    (hk0 : 0 ≤ k) (hk63 : k < 2 ^ 63) :
    c.ScalarM k pt = iterAdd c pt k.toNat := by
  haveI : Fact P.Prime := ⟨hPp⟩
  obtain ⟨Q, hM, -⟩ := models_of_valid hF hP63 hA1 hA63 hB1 hB63 hInf hX0 hXP hY0 hYP
    hval hns
  exact models_unique (models_ScalarM hF hP63 hA1 hA63 hk0 hk63 hM)
    (models_iterAdd hF hP63 hA1 hA63 hM k.toNat)

/-- Witness for C6 on the curve `y² = x³ + 2x + 3` over `F_5` with the
point `(2, 0)` and `k = 5`. -/
theorem C6_scalar_mult_iterated_witness :
    ec.Curve.ScalarM curve523 5 ⟨2, 0, false⟩ = iterAdd curve523 ⟨2, 0, false⟩ 5 :=
  C6_scalar_mult_iterated curve523 5 5 ⟨2, 0, false⟩ (by norm_num)
    (by norm_num [curve523]) (by norm_num) (by norm_num [curve523])
    (by norm_num [curve523]) (by norm_num [curve523]) (by norm_num [curve523])
    rfl (by norm_num) (by norm_num) (by norm_num) (by norm_num)
    (by decide) (by decide) (by norm_num) (by norm_num)

/-- **C1 (counterexample).**  Every hypothesis of the claim holds on
`curveNine`: the generator lies on the curve, its declared order `N = 3`
is prime and is its true order (`3·G` is infinity), `BS = 2 ≤ 31`, the
digest has `⌈BS/8⌉ = 1` byte, and `d = k = 2 ∈ [1, 3)`.  `rawSign`
succeeds with `(1, 2)`, yet `Verify` rejects: the field order `9` is
composite, and the wrong modular inverses break the group law. -/
theorem C1_counterexample :
    ec.Curve.Valid curveNine curveNine.G = true ∧
    Prime curveNine.N ∧
    (ec.Curve.ScalarM curveNine curveNine.N curveNine.G).Inf = true ∧
    ecdsa.rawSign (ecdsa.generateKey curveNine 2) 2 [167] = .ok (1, 2) ∧
    ecdsa.Verify (ecdsa.generateKey curveNine 2).Pub 1 2 [167] = false := by
  refine ⟨by decide, ?_, by decide, by rfl, by rfl⟩
  norm_num [curveNine]

/-- **C1 (amended).**  Over a prime field order `P < 2^63`, for a curve
whose canonical valid finite generator has nonvanishing partial
derivatives and prime declared order `N < 2^63` that kills the
generator (`ScalarM N G` is infinity), bit size `0 ≤ BS ≤ 31`, a digest
of genuine bytes, and `d, k ∈ [1, N)`: whenever `rawSign` succeeds with
`(r, s)`, `Verify` over the public key `(c, d·G)` accepts. -/
theorem C1_sign_verify_roundtrip (c : ec.Curve) (P : ℕ) (d k : Int) (h : List Nat)
    (r s : Int)
    (hPp : Nat.Prime P)
    (hF : c.F = (P : ℤ)) (hP63 : (P : ℤ) < 2 ^ 63)
    (hA1 : -(P : ℤ) ≤ c.A) (hA63 : c.A < 2 ^ 63)
    (hB1 : -(P : ℤ) ≤ c.B) (hB63 : c.B < 2 ^ 63)
    (hGInf : c.G.Inf = false)
    (hGX0 : 0 ≤ c.G.X) (hGXP : c.G.X < (P : ℤ))
    (hGY0 : 0 ≤ c.G.Y) (hGYP : c.G.Y < (P : ℤ))
    (hGval : c.Valid c.G = true)
    (hGns : ¬((3 * c.G.X ^ 2 + c.A) % (P : ℤ) = 0 ∧ (2 * c.G.Y) % (P : ℤ) = 0))
    (hNp : Prime c.N) (hN2 : 2 ≤ c.N) (hN63 : c.N < 2 ^ 63)
    (hord : (c.ScalarM c.N c.G).Inf = true)
    (hbs0 : 0 ≤ c.BS) (hbs31 : c.BS ≤ 31)
    (hbytes : ∀ v ∈ h, v < 256)
    (hd1 : 1 ≤ d) (hdN : d < c.N) (hk1 : 1 ≤ k) (hkN : k < c.N)
    (hsig : ecdsa.rawSign (ecdsa.generateKey c d) k h = .ok (r, s)) :
    ecdsa.Verify (ecdsa.generateKey c d).Pub r s h = true := by
  haveI : Fact P.Prime := ⟨hPp⟩
  have hP2 : (2 : ℤ) ≤ (P : ℤ) := by exact_mod_cast hPp.two_le
  have hP0 : (0 : ℤ) < (P : ℤ) := by omega
  have hz0 : 0 ≤ ecdsa.truncate h c.BS := ecdsa.truncate_nonneg h c.BS
  have hz32 : ecdsa.truncate h c.BS < 2 ^ 32 := ecdsa.truncate_lt hbs0 hbs31 hbytes
  obtain ⟨hr1, hrN, hs1, hsN, hrfor, v, hv, hv0, hvN, hvmul, hseq⟩ :=
    ecdsa.rawSign_ok_spec hNp hN2 hN63 hk1 hkN (by omega) (by omega) (by omega) hsig
  obtain ⟨QG, hMG, hQGne⟩ := models_of_valid hF hP63 hA1 hA63 hB1 hB63 hGInf
    hGX0 hGXP hGY0 hGYP hGval hGns
  have hN0 : (0 : ℤ) ≤ c.N := by omega
  have hMN := models_ScalarM hF hP63 hA1 hA63 hN0 (by omega) hMG
  have hNQG : c.N.toNat • QG = 0 := models_eq_zero_of_inf hMN hord
  have hNpnat : c.N.toNat.Prime := by
    have hh := Int.prime_iff_natAbs_prime.mp hNp
    have he : c.N.toNat = c.N.natAbs := by omega
    rw [he]
    exact hh
  have hd0 : (0 : ℤ) ≤ d := by omega
  have hMP := models_ScalarM hF hP63 hA1 hA63 hd0 (by omega) hMG
  have hdQGne : d.toNat • QG ≠ 0 :=
    nsmul_ne_zero_of_lt hNpnat hNQG hQGne (by omega) (by omega)
  obtain ⟨hPInf, hPX0, hPXP, hPY0, hPYP, hnsP, hQPdef⟩ :=
    models_finite_of_ne_zero hMP hdQGne
  have hvalP : c.Valid (c.ScalarM d c.G) = true := by
    rw [Valid_iff_equation hF hP63 hA1 hA63 hB1 hB63 hPInf hPX0 hPXP hPY0 hPYP]
    exact hnsP.1
  have hMNP := models_ScalarM hF hP63 hA1 hA63 hN0 (by omega) hMP
  have hNdz : c.N.toNat • (d.toNat • QG) = 0 := by
    rw [smul_comm, hNQG]
    exact nsmul_zero d.toNat
  have hPInfN : c.ScalarM c.N (c.ScalarM d c.G) = ⟨0, 0, true⟩ :=
    models_pt_of_eq_zero hMNP hNdz
  obtain ⟨w, hw, hw0, hwN, hwmul⟩ :=
    (Finite.Inverse_spec c.N s hNp hN2 hN63 (by omega) hsN).2 (by omega)
  -- the u1, u2 multipliers
  have hu1r := Finite.Multiply_range (p := c.N) (i := ecdsa.truncate h c.BS) (j := w)
    (by omega) hN63 (by omega) (by omega) (by omega) (by omega)
  have hu2r := Finite.Multiply_range (p := c.N) (i := r) (j := w)
    (by omega) hN63 (by omega) (by omega) (by omega) (by omega)
  have hMu1 := models_ScalarM hF hP63 hA1 hA63 hu1r.1 (by omega) hMG
  have hMu2 := models_ScalarM hF hP63 hA1 hA63 hu2r.1 (by omega) hMP
  have hMcp := models_add hF hP63 hA1 hA63 hMu1 hMu2
  -- modular algebra over the scalar field N
  obtain ⟨n, hn⟩ : ∃ n : ℕ, (n : ℤ) = c.N := ⟨c.N.toNat, Int.toNat_of_nonneg (by omega)⟩
  have hton : c.N.toNat = n := by omega
  have hNn63 : (n : ℤ) < 2 ^ 63 := by omega
  have hNnpos : 0 < (n : ℤ) := by omega
  have castMulN : ∀ {i j : ℤ}, -c.N ≤ i → i < 2 ^ 63 → -c.N ≤ j → j < 2 ^ 63 →
      ((Finite.Multiply c.N i j : ℤ) : ZMod n) = (i : ZMod n) * (j : ZMod n) := by
    intro i j hi hi63 hj hj63
    rw [← hn] at hi hj ⊢
    exact zmod_Multiply hNn63 hNnpos hi hi63 hj hj63
  have castAddN : ∀ {i j : ℤ}, -c.N ≤ i → i < 2 ^ 63 → -c.N ≤ j → j < 2 ^ 63 →
      ((Finite.Add c.N i j : ℤ) : ZMod n) = (i : ZMod n) + (j : ZMod n) := by
    intro i j hi hi63 hj hj63
    rw [← hn] at hi hj ⊢
    exact zmod_Add hNn63 hNnpos hi hi63 hj hj63
  have hrd := Finite.Multiply_range (p := c.N) (i := r) (j := d)
    (by omega) hN63 (by omega) (by omega) (by omega) (by omega)
  have hzrd := Finite.Add_range (p := c.N) (i := ecdsa.truncate h c.BS)
    (j := Finite.Multiply c.N r d) (by omega) hN63 (by omega) (by omega)
    (by omega) (by omega)
  have hkv : (k : ZMod n) * (v : ZMod n) = 1 := by
    rw [← castMulN (by omega) (by omega) (by omega) (by omega), hvmul]
    norm_num
  have hsw : (s : ZMod n) * (w : ZMod n) = 1 := by
    rw [← castMulN (by omega) (by omega) (by omega) (by omega), hwmul]
    norm_num
  have hseqc : (s : ZMod n) = (v : ZMod n) *
      ((ecdsa.truncate h c.BS : ZMod n) + (r : ZMod n) * (d : ZMod n)) := by
    rw [hseq, castMulN (by omega) (by omega) (by omega) (by omega),
      castAddN (by omega) (by omega) (by omega) (by omega),
      castMulN (by omega) (by omega) (by omega) (by omega)]
  have halpha : (k : ZMod n) * (s : ZMod n) =
      (ecdsa.truncate h c.BS : ZMod n) + (r : ZMod n) * (d : ZMod n) := by
    rw [hseqc]
    have hassoc : (k : ZMod n) * ((v : ZMod n) *
        ((ecdsa.truncate h c.BS : ZMod n) + (r : ZMod n) * (d : ZMod n))) =
        ((k : ZMod n) * (v : ZMod n)) *
        ((ecdsa.truncate h c.BS : ZMod n) + (r : ZMod n) * (d : ZMod n)) := by ring
    rw [hassoc, hkv, one_mul]
  have hu1c : ((Finite.Multiply c.N (ecdsa.truncate h c.BS) w : ℤ) : ZMod n) =
      (ecdsa.truncate h c.BS : ZMod n) * (w : ZMod n) :=
    castMulN (by omega) (by omega) (by omega) (by omega)
  have hu2c : ((Finite.Multiply c.N r w : ℤ) : ZMod n) =
      (r : ZMod n) * (w : ZMod n) :=
    castMulN (by omega) (by omega) (by omega) (by omega)
  have hcong : ((Finite.Multiply c.N (ecdsa.truncate h c.BS) w +
      Finite.Multiply c.N r w * d : ℤ) : ZMod n) = ((k : ℤ) : ZMod n) := by
    push_cast
    rw [hu1c, hu2c]
    calc (ecdsa.truncate h c.BS : ZMod n) * (w : ZMod n) +
        (r : ZMod n) * (w : ZMod n) * (d : ZMod n)
        = ((ecdsa.truncate h c.BS : ZMod n) + (r : ZMod n) * (d : ZMod n)) *
          (w : ZMod n) := by ring
    _ = ((k : ZMod n) * (s : ZMod n)) * (w : ZMod n) := by rw [halpha]
    _ = (k : ZMod n) * ((s : ZMod n) * (w : ZMod n)) := by ring
    _ = (k : ZMod n) := by rw [hsw, mul_one]
  have hmodeq : (Finite.Multiply c.N (ecdsa.truncate h c.BS) w +
      Finite.Multiply c.N r w * d) % (n : ℤ) = k % (n : ℤ) :=
    (ZMod.intCast_eq_intCast_iff _ _ _).mp hcong
  have hnatmod : ((Finite.Multiply c.N (ecdsa.truncate h c.BS) w).toNat +
      d.toNat * (Finite.Multiply c.N r w).toNat) % n = k.toNat % n := by
    have hc : ((((Finite.Multiply c.N (ecdsa.truncate h c.BS) w).toNat +
        d.toNat * (Finite.Multiply c.N r w).toNat) % n : ℕ) : ℤ) =
        ((k.toNat % n : ℕ) : ℤ) := by
      push_cast
      rw [Int.toNat_of_nonneg hu1r.1, Int.toNat_of_nonneg hd0,
        Int.toNat_of_nonneg hu2r.1, Int.toNat_of_nonneg (by omega : (0 : ℤ) ≤ k)]
      rw [show (Finite.Multiply c.N (ecdsa.truncate h c.BS) w +
        d * Finite.Multiply c.N r w : ℤ) = Finite.Multiply c.N (ecdsa.truncate h c.BS) w +
        Finite.Multiply c.N r w * d from by ring]
      exact hmodeq
    exact Nat.cast_inj.mp hc
  have hNQGn : n • QG = 0 := by rw [← hton]; exact hNQG
  have hmodel_eq : (Finite.Multiply c.N (ecdsa.truncate h c.BS) w).toNat • QG +
      (Finite.Multiply c.N r w).toNat • (d.toNat • QG) =
      k.toNat • QG := by
    rw [← mul_nsmul, ← add_nsmul, nsmul_mod_eq hNQGn, nsmul_mod_eq hNQGn k.toNat,
      hnatmod]
  have hMk := models_ScalarM hF hP63 hA1 hA63 (by omega : (0 : ℤ) ≤ k) (by omega) hMG
  rw [hmodel_eq] at hMcp
  have hcp_eq : c.Add (c.ScalarM (Finite.Multiply c.N (ecdsa.truncate h c.BS) w) c.G)
      (c.ScalarM (Finite.Multiply c.N r w) (c.ScalarM d c.G)) = c.ScalarM k c.G :=
    models_unique hMcp hMk
  have hkQGne : k.toNat • QG ≠ 0 :=
    nsmul_ne_zero_of_lt hNpnat hNQG hQGne (by omega) (by omega)
  have hkInf : (c.ScalarM k c.G).Inf = false := (models_finite_of_ne_zero hMk hkQGne).1
  -- unfold Verify and discharge each guard
  simp only [ecdsa.Verify, ecdsa.generateKey, hPInf, hvalP, hPInfN, hw,
    Bool.false_eq_true, if_false, not_true, Bool.not_eq_true]
  rw [if_neg (by omega), if_neg (by omega)]
  rw [hcp_eq, hkInf]
  simp only [Bool.false_eq_true, if_false]
  rw [← hrfor]
  simp

/-- Witness for C1 on the repository's test curve `curve479` with
`d = 23`, `k = 123`, digest `[0x49]`: `rawSign` yields `(62, 141)` and
`Verify` accepts it. -/
theorem C1_sign_verify_roundtrip_witness :
    ecdsa.Verify (ecdsa.generateKey curve479 23).Pub 62 141 [0x49] = true :=
  C1_sign_verify_roundtrip curve479 479 23 123 [0x49] 62 141
    (by norm_num)
    (by norm_num [curve479]) (by norm_num)
    (by norm_num [curve479]) (by norm_num [curve479])
    (by norm_num [curve479]) (by norm_num [curve479])
    rfl
    (by norm_num [curve479]) (by norm_num [curve479])
    (by norm_num [curve479]) (by norm_num [curve479])
    (by decide) (by decide)
    (by norm_num [curve479]) (by norm_num [curve479]) (by norm_num [curve479])
    (by rfl)
    (by norm_num [curve479]) (by norm_num [curve479])
    (by decide)
    (by norm_num) (by norm_num [curve479]) (by norm_num) (by norm_num [curve479])
    (by rfl)
